import Mathlib

/-!
Shallow embedding of the UsenetStreamer helper utilities
(`src/utils` result post-processing helpers, file `part_000`) and of the
TMDB metadata client (`src/services/tmdb.js`), together with proofs of
the specification claims about them.

Modelling conventions:
* JavaScript values that may be `undefined`/`null` are modelled with
  `Option`; a missing or non-finite number is `none`.
* JavaScript string truthiness (`""` is falsy) is `strTruthy`.
* `Array.prototype.sort` with a comparator `cmp` is modelled by the
  stable `List.mergeSort` with the relation `cmp a b ≤ 0` (stable,
  sorted w.r.t. the comparator, a permutation of the input — exactly
  the guarantees of the JavaScript engine's sort).
* External collaborators (`normalizeReleaseTitle`,
  `parseReleaseMetadata`, the TMDB HTTP endpoints) are opaque pure
  functions, passed as parameters ("oracles").
-/

/-- JavaScript truthiness for a possibly-absent string: `undefined`,
`null` and `""` are falsy. -/
def strTruthy : Option String → Bool
  | some s => s ≠ ""
  | none => false

/-- `String.toLowerCase()` modelled structurally (character-wise ASCII
lowering), so that concrete inputs evaluate by kernel reduction. -/
def strToLower (s : String) : String := String.mk (s.data.map Char.toLower)

/-- `String.toUpperCase()`, modelled like `strToLower`. -/
def strToUpper (s : String) : String := String.mk (s.data.map Char.toUpper)

namespace Tmdb

/-- The `meta` record attached to a localized-title candidate by
`registerCandidate` in `buildLocalizedTitles` (`src/services/tmdb.js`):
translation candidates carry `iso639`/`iso3166` (already lowercased),
alternative-title candidates additionally carry `type`. -/
structure CandMeta where
  type : Option String := none
  iso639 : Option String := none
  iso3166 : Option String := none
deriving DecidableEq, Repr

/-- A localized-title candidate as pushed into `candidateMap` by
`registerCandidate` (`src/services/tmdb.js`).  `normalizedTitle` is the
precomputed `normalizeTitleValue(payload.title)` and
`containsNonAscii` the precomputed non-ASCII test. -/
structure Candidate where
  title : String
  overview : Option String := none
  tagline : Option String := none
  source : String := "translation"
  normalizedTitle : String := ""
  containsNonAscii : Bool := false
  meta : CandMeta := {}
deriving DecidableEq, Repr

/-- The options record handed to `scoreLocalizedCandidate`:
normalized default/original titles, the lowercased original language
and the uppercased origin-country list. -/
structure ScoreOptions where
  defaultNormalized : String := ""
  originalNormalized : String := ""
  originalLanguage : Option String := none
  originCountries : List String := []
deriving DecidableEq, Repr

/-- Case-insensitive substring test: `pat` occurs inside `s` ignoring
case.  Used to embed the case-insensitive regular-expression tests of
`scoreLocalizedCandidate`. -/
def isInfixOfB (pat : List Char) : List Char → Bool
  | [] => pat.isEmpty
  | c :: rest => pat.isPrefixOf (c :: rest) || isInfixOfB pat rest

/-- Case-insensitive substring test: `pat` occurs inside `s` ignoring
case.  Used to embed the case-insensitive regular-expression tests of
`scoreLocalizedCandidate`. -/
def containsCI (s pat : String) : Bool :=
  isInfixOfB (strToLower pat).toList (strToLower s).toList

/-- Embedding of the regex test `/official|literal|original/i`. -/
def typeIsOfficialLike (t : String) : Bool :=
  containsCI t "official" || containsCI t "literal" || containsCI t "original"

/-- Embedding of the regex test `/festival|working|dvd|tv/i`. -/
def typeIsFestivalLike (t : String) : Bool :=
  containsCI t "festival" || containsCI t "working" || containsCI t "dvd" || containsCI t "tv"

/-- Embedding of `scoreLocalizedCandidate` (`src/services/tmdb.js`
lines 192–222): the additive heuristic score of a candidate. -/
def scoreLocalizedCandidate (candidate : Candidate) (options : ScoreOptions) : Int :=
  (if candidate.source = "translation" then 40 else 0)
  + (if candidate.source = "alternative" then 15 else 0)
  + (match candidate.meta.type with
     | some t => if t ≠ "" ∧ typeIsOfficialLike t then 8 else 0
     | none => 0)
  + (match candidate.meta.type with
     | some t => if t ≠ "" ∧ typeIsFestivalLike t then -3 else 0
     | none => 0)
  + (match candidate.meta.iso639, options.originalLanguage with
     | some a, some b => if a ≠ "" ∧ b ≠ "" ∧ a = b then 6 else 0
     | _, _ => 0)
  + (match candidate.meta.iso3166 with
     | some r => if r ≠ "" ∧ options.originCountries.contains (strToUpper r) then 4 else 0
     | none => 0)
  + (if candidate.containsNonAscii then 3 else 0)
  + (if candidate.normalizedTitle ≠ "" ∧ candidate.normalizedTitle = options.defaultNormalized
     then -6 else 0)
  + (if candidate.normalizedTitle ≠ "" ∧ candidate.normalizedTitle = options.originalNormalized
     then 6 else 0)

/-- The per-locale record stored into the `localized` result object by
`buildLocalizedTitles`. -/
structure LocalizedEntry where
  title : String
  overview : Option String
  tagline : Option String
  source : String
  type : Option String
deriving DecidableEq, Repr

/-- A `{ candidate, score }` pair as built inside the final
`candidateMap.forEach` of `buildLocalizedTitles`. -/
structure ScoredCandidate where
  candidate : Candidate
  score : Int
deriving DecidableEq, Repr

/-- Projection of the best candidate into the stored entry
(`localized[localeToken] = { title, overview, tagline, source, type }`,
with `type: best.meta?.type || null`). -/
def entryOfCandidate (c : Candidate) : LocalizedEntry :=
  { title := c.title
    overview := c.overview
    tagline := c.tagline
    source := c.source
    type := match c.meta.type with
      | some t => if t ≠ "" then some t else none
      | none => none }

/-- The body of the `candidateMap.forEach` in `buildLocalizedTitles`:
score every candidate registered under one locale token, sort the
scored pairs descending by score with the engine's stable sort, and
keep the first element (if any). -/
def selectLocalized (candidates : List Candidate) (options : ScoreOptions) :
    Option LocalizedEntry :=
  match ((candidates.map fun c =>
      ScoredCandidate.mk c (scoreLocalizedCandidate c options)).mergeSort
        (fun a b => b.score ≤ a.score)).head? with
  | some best => some (entryOfCandidate best.candidate)
  | none => none

/-- The selection stage of `buildLocalizedTitles`
(`src/services/tmdb.js` lines 224–327), starting from the registered
`candidateMap` (a map from locale token to the list of candidates in
registration order; the upstream registration step, which performs
Unicode title normalization, happens before this point).  For each
token the best-scoring candidate is kept. -/
def buildLocalizedTitles (candidateMap : List (String × List Candidate))
    (options : ScoreOptions) : List (String × LocalizedEntry) :=
  candidateMap.filterMap fun tc =>
    (selectLocalized tc.2 options).map fun e => (tc.1, e)

/-- The record returned by `findTmdbIdByImdb` / `searchTmdbByTitle`
when a match is found (`tmdbId` is `String(id)` and therefore a
string; the remaining fields are whatever the endpoint supplied). -/
structure TmdbMatch where
  tmdbId : String
  title : Option String := none
  releaseDate : Option String := none
  extra : Option String := none
deriving DecidableEq, Repr

/-- A match as returned by `resolveTmdbId`: the endpoint match plus the
`via` resolution-method tag (`"imdb"`, `"title"` or `"title:<lang>"`). -/
structure ResolvedMatch where
  found : TmdbMatch
  via : String
deriving DecidableEq, Repr

/-- The `via` tag for one title-search language candidate:
`candidate ? 'title:' + candidate : 'title'`. -/
def titleVia : Option String → String
  | some s => if s ≠ "" then "title:" ++ s else "title"
  | none => "title"

/-- The title-search loop of `resolveTmdbId`: try each language
candidate in order against the `searchTmdbByTitle` collaborator
(modelled by the oracle `searchO`) until one yields a match with a
truthy `tmdbId`.  Also counts how many times the search collaborator
was invoked. -/
def resolveSearchLoop (searchO : Option String → Option TmdbMatch) :
    List (Option String) → Option ResolvedMatch × Nat
  | [] => (none, 0)
  | candidate :: rest =>
    match searchO candidate with
    | some m =>
      if m.tmdbId ≠ "" then (some ⟨m, titleVia candidate⟩, 1)
      else
        let (r, n) := resolveSearchLoop searchO rest
        (r, n + 1)
    | none =>
      let (r, n) := resolveSearchLoop searchO rest
      (r, n + 1)

/-- The `if (title)` fallback phase of `resolveTmdbId`: free-text
title search over the language candidates (a single
unspecified-language attempt when none are given). -/
def resolveTitlePhase (title : Option String)
    (languageCandidates : List (Option String))
    (searchO : Option String → Option TmdbMatch) : Option ResolvedMatch × Nat :=
  if strTruthy title then
    let candidates := if languageCandidates.isEmpty then [none] else languageCandidates
    resolveSearchLoop searchO candidates
  else (none, 0)

/-- Embedding of `resolveTmdbId` (`src/services/tmdb.js` lines
135–156).  The two HTTP collaborators are oracles: `findO` is the
result of `findTmdbIdByImdb` for these arguments, `searchO` maps a
language candidate to the result of `searchTmdbByTitle` with that
language.  Returns the resolved match together with the number of
times the title-search collaborator was invoked. -/
def resolveTmdbId (apiKey imdbId title : Option String)
    (languageCandidates : List (Option String))
    (findO : Option TmdbMatch) (searchO : Option String → Option TmdbMatch) :
    Option ResolvedMatch × Nat :=
  if ¬ strTruthy apiKey then (none, 0)
  else
    let imdbMatch : Option TmdbMatch := if strTruthy imdbId then findO else none
    match imdbMatch with
    | some m =>
      if m.tmdbId ≠ "" then (some ⟨m, "imdb"⟩, 0)
      else resolveTitlePhase title languageCandidates searchO
    | none => resolveTitlePhase title languageCandidates searchO

end Tmdb

namespace Helpers

/-- A (non-null) annotated NZB result as consumed by the sorting and
filtering helpers of `part_000`: the fields those helpers read.
`size = none` models a missing or non-finite size, `language`/
`languages` model the optional language fields
(`languages = none` models "not an array"). -/
structure SR where
  qualityRank : Int := 0
  size : Option Int := none
  language : Option String := none
  languages : Option (List (Option String)) := none
deriving DecidableEq, Repr

/-- `Number.isFinite(size) ? size : 0` as used by the comparator. -/
def sizeOr0 : Option Int → Int
  | some s => s
  | none => 0

/-- Embedding of `compareQualityThenSize` (`part_000` lines 40–47):
descending `qualityRank`, ties broken by descending size with a
non-finite size treated as `0`. -/
def compareQualityThenSize (a b : SR) : Int :=
  if a.qualityRank ≠ b.qualityRank then b.qualityRank - a.qualityRank
  else sizeOr0 b.size - sizeOr0 a.size

/-- The "may come first" relation induced by the comparator, used to
model the engine's stable comparator sort. -/
def qsLe (a b : SR) : Bool := compareQualityThenSize a b ≤ 0

/-- Embedding of `resultMatchesPreferredLanguage` (`part_000` lines
28–38) on well-shaped inputs: case-insensitive match of
`result.language`, else membership in the `result.languages` array. -/
def resultMatchesPreferredLanguage (result : SR) (preferredLanguage : Option String) : Bool :=
  match preferredLanguage with
  | none => false
  | some p =>
    if p = "" then false
    else
      let normalized := strToLower p
      if (match result.language with
          | some l => l ≠ "" && strToLower l = normalized
          | none => false) then
        true
      else
        match result.languages with
        | some langs => langs.any fun l =>
            match l with
            | some s => s ≠ "" && strToLower s = normalized
            | none => false
        | none => false

/-- Embedding of `sortAnnotatedResults` (`part_000` lines 49–69),
return value only (the in-place mutation of the input array is
modelled separately by `prepareSortedResultsM`).  The language-first
partition loop is the filter into `preferred`/`others`; each
`Array.prototype.sort` call is the stable `mergeSort` with `qsLe`. -/
def sortAnnotatedResults (results : List SR) (sortMode : Option String)
    (preferredLanguage : Option String) : List SR :=
  if results.isEmpty then results
  else if sortMode = some "language_quality_size" ∧ strTruthy preferredLanguage then
    let preferred := results.filter fun r => resultMatchesPreferredLanguage r preferredLanguage
    let others := results.filter fun r => ¬ resultMatchesPreferredLanguage r preferredLanguage
    preferred.mergeSort qsLe ++ others.mergeSort qsLe
  else
    results.mergeSort qsLe

/-- Embedding of `applyMaxSizeFilter` (`part_000` lines 18–26).
`results = none` models a non-array input, `maxSizeBytes = none` a
non-finite (missing, `NaN` or infinite) bound; in either of those
cases, or for a non-positive bound, the input is returned unchanged. -/
def applyMaxSizeFilter (results : Option (List SR)) (maxSizeBytes : Option Int) :
    Option (List SR) :=
  match results, maxSizeBytes with
  | some rs, some m =>
    if m ≤ 0 then results
    else some (rs.filter fun r =>
      match r.size with
      | some s => s ≤ m
      | none => true)
  | _, _ => results

/-- Whether the size filter of `prepareSortedResults` actually filters
(`Array.isArray(results) && Number.isFinite(maxSizeBytes) &&
maxSizeBytes > 0`); when it does, `results.filter` allocates a fresh
array, otherwise the very same array reference is passed on. -/
def filterActive (maxSizeBytes : Option Int) : Bool :=
  match maxSizeBytes with
  | some m => 0 < m
  | none => false

/-- Whether `sortAnnotatedResults` takes the language-first branch. -/
def langMode (sortMode preferredLanguage : Option String) : Bool :=
  sortMode = some "language_quality_size" && strTruthy preferredLanguage

/-- State-passing embedding of `prepareSortedResults` (`part_000`
lines 71–76) over an array input.  JavaScript's
`Array.prototype.sort` mutates its receiver, and when the size filter
is a no-op `applyMaxSizeFilter` returns the input array itself, so the
call can reorder the caller's array.  The first component is the
returned list, the second the contents of the caller's input array
after the call. -/
def prepareSortedResultsM (results : List SR) (maxSizeBytes : Option Int)
    (sortMode : Option String) (preferredLanguage : Option String) :
    List SR × List SR :=
  let working :=
    if filterActive maxSizeBytes then
      results.filter fun r =>
        match r.size with
        | some s => s ≤ (maxSizeBytes.getD 0)
        | none => true
    else results
  let ret := sortAnnotatedResults working sortMode preferredLanguage
  let inputAfter :=
    if working.isEmpty then results
    else if langMode sortMode preferredLanguage then results
    else if filterActive maxSizeBytes then results
    else working.mergeSort qsLe
  (ret, inputAfter)

/-- A triage decision as read by `buildTriageTitleMap` (`part_000`):
only the fields that function touches.  Optional fields model
missing/`null` values; `none` for a list field models "not an
array". -/
structure Decision where
  status : Option String := none
  title : Option String := none
  normalizedTitle : Option String := none
  blockers : Option (List String) := none
  warnings : Option (List String) := none
  archiveFindings : Option (List String) := none
  fileCount : Option Int := none
  publishDateMs : Option Int := none
  ageDays : Option Int := none
deriving DecidableEq, Repr

/-- Embedding of `triageStatusRank` (`part_000` lines 78–94). -/
def triageStatusRank (status : String) : Nat :=
  if status = "blocked" ∨ status = "fetch-error" ∨ status = "error" then 4
  else if status = "verified" then 3
  else if status = "unverified" then 2
  else if status = "pending" ∨ status = "skipped" then 1
  else 0

/-- The value stored into the title map by `buildTriageTitleMap`. -/
structure TitleEntry where
  status : String
  blockers : List String := []
  warnings : List String := []
  archiveFindings : List String := []
  fileCount : Option Int := none
  normalizedTitle : String
  title : Option String := none
  sourceDownloadUrl : String
  publishDateMs : Option Int := none
  ageDays : Option Int := none
deriving DecidableEq, Repr

/-- `Map.prototype.set` on an association list with unique keys:
replace the value in place when the key is present, else append. -/
def mapSet (m : List (String × TitleEntry)) (k : String) (v : TitleEntry) :
    List (String × TitleEntry) :=
  if m.any (fun p => p.1 = k) then
    m.map fun p => if p.1 = k then (k, v) else p
  else m ++ [(k, v)]

/-- `Map.prototype.get` on an association list. -/
def mapGet (m : List (String × TitleEntry)) (k : String) : Option TitleEntry :=
  (m.find? fun p => p.1 = k).map Prod.snd

/-- The normalized title key a decision registers under
(`decision.normalizedTitle || normalizeReleaseTitle(decision.title)`),
with `norm` the external `normalizeReleaseTitle` collaborator
(`none` models a falsy collaborator result).  Returns `none` when the
key is falsy and the decision is skipped. -/
def decisionTitleKey (norm : Option String → Option String) (d : Decision) :
    Option String :=
  let k := if strTruthy d.normalizedTitle then d.normalizedTitle else norm d.title
  if strTruthy k then k else none

/-- Whether `buildTriageTitleMap` skips a decision outright:
missing/falsy status, `'pending'` or `'skipped'`. -/
def decisionSkipped (d : Decision) : Bool :=
  ¬ strTruthy d.status ∨ d.status = some "pending" ∨ d.status = some "skipped"

/-- The entry built from a surviving decision. -/
def entryOfDecision (downloadUrl : String) (d : Decision) (status normalizedTitle : String) :
    TitleEntry :=
  { status := status
    blockers := d.blockers.getD []
    warnings := d.warnings.getD []
    archiveFindings := d.archiveFindings.getD []
    fileCount := d.fileCount
    normalizedTitle := normalizedTitle
    title := if strTruthy d.title then d.title else none
    sourceDownloadUrl := downloadUrl
    publishDateMs := d.publishDateMs
    ageDays := d.ageDays }

/-- One iteration of the `decisions.forEach` in `buildTriageTitleMap`. -/
def triageStep (norm : Option String → Option String)
    (m : List (String × TitleEntry)) (p : String × Option Decision) :
    List (String × TitleEntry) :=
  match p.2 with
  | none => m
  | some d =>
    if decisionSkipped d then m
    else
      match d.status, decisionTitleKey norm d with
      | some status, some normalizedTitle =>
        (match mapGet m normalizedTitle with
         | some existing =>
           if triageStatusRank status ≥ triageStatusRank existing.status then
             mapSet m normalizedTitle (entryOfDecision p.1 d status normalizedTitle)
           else m
         | none => mapSet m normalizedTitle (entryOfDecision p.1 d status normalizedTitle))
      | _, _ => m

/-- Embedding of `buildTriageTitleMap` (`part_000` lines 96–124).
The `decisions` map is modelled as its entry list in insertion order
(JavaScript `Map` iteration order), with possibly-absent values; the
non-`Map` guard corresponds to passing the empty list. -/
def buildTriageTitleMap (norm : Option String → Option String)
    (decisions : List (String × Option Decision)) : List (String × TitleEntry) :=
  decisions.foldl (triageStep norm) []

/-- A result as read by `prioritizeTriageCandidates`: the three fields
used to compute its de-duplication key. -/
structure TR where
  normalizedTitle : Option String := none
  title : Option String := none
  downloadUrl : Option String := none
deriving DecidableEq, Repr

/-- The de-duplication key of `prioritizeTriageCandidates`
(`result.normalizedTitle || normalizeReleaseTitle(result.title) ||
result.downloadUrl`): the value of the first truthy disjunct, or the
raw `downloadUrl` value (possibly falsy) when all are falsy. -/
def triageKey (norm : Option String → Option String) (r : TR) : Option String :=
  if strTruthy r.normalizedTitle then r.normalizedTitle
  else if strTruthy (norm r.title) then norm r.title
  else r.downloadUrl

/-- `selected.length >= Math.max(1, maxCandidates)`: with a non-number
`maxCandidates` the right-hand side is `NaN` and the comparison is
always false, so the loop never breaks. -/
def capReached (maxCandidates : Option Int) (len : Nat) : Bool :=
  match maxCandidates with
  | some n => (len : Int) ≥ max 1 n
  | none => false

/-- The selection loop of `prioritizeTriageCandidates`: skip falsy
results, skip already-seen keys, push the result, break once the cap
is reached. -/
def prioritizeLoop (norm : Option String → Option String)
    (maxCandidates : Option Int) :
    List (Option TR) → List (Option String) → Nat → List TR
  | [], _, _ => []
  | none :: rest, seen, len => prioritizeLoop norm maxCandidates rest seen len
  | some r :: rest, seen, len =>
    if triageKey norm r ∈ seen then prioritizeLoop norm maxCandidates rest seen len
    else if capReached maxCandidates (len + 1) then [r]
    else r :: prioritizeLoop norm maxCandidates rest (triageKey norm r :: seen) (len + 1)

/-- Embedding of `prioritizeTriageCandidates` (`part_000` lines
126–139); `norm` is the external `normalizeReleaseTitle`
collaborator and `maxCandidates = none` models a non-number cap. -/
def prioritizeTriageCandidates (norm : Option String → Option String)
    (results : List (Option TR)) (maxCandidates : Option Int) : List TR :=
  if results.isEmpty then [] else prioritizeLoop norm maxCandidates results [] 0

/-- Modelled from the spec sentence for the C10 comparison: "returns
the first occurrence of every distinct de-duplication key in input
order" — cap-free de-duplication keeping the first occurrence of each
key, in input order, skipping falsy results. -/
def dedupFirstByKey (norm : Option String → Option String) :
    List (Option TR) → List (Option String) → List TR
  | [], _ => []
  | none :: rest, seen => dedupFirstByKey norm rest seen
  | some r :: rest, seen =>
    if triageKey norm r ∈ seen then dedupFirstByKey norm rest seen
    else r :: dedupFirstByKey norm rest (triageKey norm r :: seen)

end Helpers

namespace JS

/-- A small universe of JavaScript values, for claims about behaviour
on arbitrarily malformed input.  `num` is a finite number; `nan`
stands in for any non-finite number. -/
inductive JSVal where
  | undef
  | nullV
  | bool (b : Bool)
  | num (n : Int)
  | nan
  | str (s : String)
  | arr (elems : List JSVal)
  | obj (fields : List (String × JSVal))
deriving Repr

open JSVal

/-- JavaScript truthiness. -/
def truthy : JSVal → Bool
  | undef => false
  | nullV => false
  | .bool b => b
  | num n => n ≠ 0
  | nan => false
  | str s => s ≠ ""
  | arr _ => true
  | obj _ => true

/-- Property access `v.k` on a truthy value: fields of an object
(later duplicate keys shadow earlier ones, as in an object literal),
`undefined` on primitives and arrays. -/
def getField (v : JSVal) (k : String) : JSVal :=
  match v with
  | obj fields => (fields.foldl (fun acc p => if p.1 = k then some p.2 else acc) none).getD undef
  | _ => undef

/-- `v.toLowerCase()`: defined on strings, a `TypeError` on anything
else (non-strings have no such method). -/
def toLowerCaseE : JSVal → Except Unit String
  | str s => .ok (strToLower s)
  | _ => .error ()

/-- The `languages.some((lang) => lang && lang.toLowerCase() ===
normalized)` callback loop, which can throw from `toLowerCase`. -/
def someLangMatches (normalized : String) : List JSVal → Except Unit Bool
  | [] => .ok false
  | l :: rest =>
    if truthy l then do
      let s ← toLowerCaseE l
      if s = normalized then pure true else someLangMatches normalized rest
    else someLangMatches normalized rest

/-- Embedding of `resultMatchesPreferredLanguage` (`part_000` lines
28–38) over arbitrary JavaScript values, with explicit `TypeError`
propagation (`Except.error`): lowercase the preferred language, test
the `language` field (lowercasing it when truthy), then fall back to
the `languages` array. -/
def resultMatchesPreferredLanguageE (result preferredLanguage : JSVal) :
    Except Unit Bool :=
  if ¬ truthy preferredLanguage ∨ ¬ truthy result then .ok false
  else
    match toLowerCaseE preferredLanguage with
    | Except.error e => Except.error e
    | Except.ok normalized =>
      match (if truthy (getField result "language") then
              match toLowerCaseE (getField result "language") with
              | Except.error e => Except.error e
              | Except.ok s => Except.ok (decide (s = normalized))
             else Except.ok false : Except Unit Bool) with
      | Except.error e => Except.error e
      | Except.ok firstMatches =>
        if firstMatches then .ok true
        else
          match getField result "languages" with
          | .arr langs => someLangMatches normalized langs
          | _ => .ok false

/-- `Number.isFinite`. -/
def isFiniteNum : JSVal → Bool
  | num _ => true
  | _ => false

/-- `result?.size`: optional chaining, `undefined` on a nullish
element. -/
def optSize : JSVal → JSVal
  | undef => undef
  | nullV => undef
  | v => getField v "size"

/-- Embedding of `applyMaxSizeFilter` (`part_000` lines 18–26) over
arbitrary JavaScript values, with explicit error propagation: every
path returns normally (the guards make the body type-safe). -/
def applyMaxSizeFilterE (results maxSizeBytes : JSVal) : Except Unit JSVal :=
  match results, maxSizeBytes with
  | arr elems, num m =>
    if m ≤ 0 then .ok (arr elems)
    else .ok (arr (elems.filter fun r =>
      match optSize r with
      | num s => s ≤ m
      | _ => true))
  | r, _ => .ok r

/-- Last-field-wins object field lookup (object spread semantics:
later spreads overwrite earlier fields). -/
def jsGet (fields : List (String × JSVal)) (k : String) : Option JSVal :=
  fields.foldl (fun acc p => if p.1 = k then some p.2 else acc) none

/-- The own fields a spread `{...array}` contributes: the array's
elements under their decimal index keys. -/
def arrayIndexFields (elems : List JSVal) : List (String × JSVal) :=
  elems.enum.map fun p => (Nat.repr p.1, p.2)

/-- Embedding of `annotateNzbResult` (`part_000` lines 7–16).
`parse` is the external `parseReleaseMetadata` collaborator (applied
to `result.title || ''`) and `norm` the external
`normalizeReleaseTitle` collaborator, both opaque pure functions; the
result object is `{...result, ...metadata, sortIndex, normalizedTitle}`
with later fields shadowing earlier ones.  The guard is
`!result || typeof result !== 'object'`: `null` and primitives pass
through unchanged, while arrays (for which `typeof` is `'object'`)
proceed and are spread into a fresh plain object under their index
keys. -/
def annotateNzbResult (parse : JSVal → List (String × JSVal))
    (norm : JSVal → JSVal) (result : JSVal) (sortIndex : Int) : JSVal :=
  match result with
  | obj fields =>
    let titleVal := getField result "title"
    let metadata := parse (if truthy titleVal then titleVal else str "")
    obj (fields ++ metadata ++
      [("sortIndex", num sortIndex), ("normalizedTitle", norm titleVal)])
  | arr elems =>
    let titleVal := getField (arr elems) "title"
    let metadata := parse (if truthy titleVal then titleVal else str "")
    obj (arrayIndexFields elems ++ metadata ++
      [("sortIndex", num sortIndex), ("normalizedTitle", norm titleVal)])
  | v => v

/-- The digits of a decimal integer literal, or `none`. -/
def decDigitsToNat (ds : List Char) : Option Nat :=
  if ds ≠ [] ∧ ds.all Char.isDigit then
    some (ds.foldl (fun n c => n * 10 + (c.toNat - 48)) 0)
  else none

/-- JavaScript `Number(string)` restricted to decimal integer
literals with optional sign and surrounding whitespace: `""` (after
trimming) is `0`, a signed digit string is its value, anything else
is `NaN` (`none`).  Fractional, exponent, hexadecimal and `Infinity`
forms — irrelevant to the claims — are conservatively modelled as
`NaN`. -/
def strToNumber (s : String) : Option Int :=
  let cs := ((s.data.dropWhile Char.isWhitespace).reverse.dropWhile
    Char.isWhitespace).reverse
  match cs with
  | [] => some 0
  | '+' :: ds => (decDigitsToNat ds).map fun n => (n : Int)
  | '-' :: ds => (decDigitsToNat ds).map fun n => -(n : Int)
  | ds => (decDigitsToNat ds).map fun n => (n : Int)

/-- JavaScript `ToNumber`, as applied by `Math.max(1, maxCandidates)`
(`none` is `NaN`): `undefined → NaN`, `null → 0`, booleans `0`/`1`,
strings via `Number(string)`, plain objects `NaN`; an array
stringifies by joining its elements with commas, so `[] → "" → 0`, a
singleton's element stringifies on its own (`null`/`undefined`
becoming the empty string) and a multi-element array always contains
a comma and is `NaN`.  A singleton whose element is itself an array
is conservatively modelled as `NaN`. -/
def jsToNumber : JSVal → Option Int
  | undef => none
  | nullV => some 0
  | .bool b => some (if b then 1 else 0)
  | num n => some n
  | nan => none
  | str s => strToNumber s
  | arr [] => some 0
  | arr [undef] => some 0
  | arr [nullV] => some 0
  | arr [num n] => some n
  | arr [str s] => strToNumber s
  | arr _ => none
  | obj _ => none

/-- `prioritizeTriageCandidates` with its JavaScript-typed
`maxCandidates` argument: the break test
`selected.length >= Math.max(1, maxCandidates)` coerces
`maxCandidates` through `ToNumber` inside `Math.max`, and when that
yields `NaN` the comparison is always false; the `Option Int`-typed
loop `Helpers.prioritizeTriageCandidates` implements exactly those
two regimes. -/
def prioritizeTriageCandidatesJS (norm : Option String → Option String)
    (results : List (Option Helpers.TR)) (maxCandidates : JSVal) :
    List Helpers.TR :=
  Helpers.prioritizeTriageCandidates norm results (jsToNumber maxCandidates)

end JS

section SortLemmas

variable {α : Type _}

/-- The comparator relation `(a, b) => σ(b) - σ(a)` (sort descending
by score) is transitive. -/
theorem scoreLe_trans (σ : α → Int) :
    ∀ a b c : α, (fun a b => decide (σ b ≤ σ a)) a b →
      (fun a b => decide (σ b ≤ σ a)) b c → (fun a b => decide (σ b ≤ σ a)) a c := by
  intro a b c hab hbc
  simp only [decide_eq_true_eq] at *
  omega

/-- The comparator relation `(a, b) => σ(b) - σ(a)` is total. -/
theorem scoreLe_total (σ : α → Int) :
    ∀ a b : α, (fun a b => decide (σ b ≤ σ a)) a b || (fun a b => decide (σ b ≤ σ a)) b a := by
  intro a b
  simp only [Bool.or_eq_true, decide_eq_true_eq]
  omega

/-- Head of the stable descending sort: sorting a non-empty list with
the stable `mergeSort`, descending by the score `σ`, puts at the head
the first element of the input that attains the maximal score: some
`m` with `l = l₁ ++ m :: l₂` where every element of `l` scores `≤ σ m`
and every element of `l₁` (the elements encountered before `m`)
scores strictly less. -/
theorem head_mergeSort_firstMax (σ : α → Int) (l : List α) (h : l ≠ []) :
    ∃ m l₁ l₂, (l.mergeSort (fun a b => decide (σ b ≤ σ a))).head? = some m ∧
      l = l₁ ++ m :: l₂ ∧ (∀ x ∈ l, σ x ≤ σ m) ∧ (∀ x ∈ l₁, σ x < σ m) := by
  induction l with
  | nil => exact absurd rfl h
  | cons a l' ih =>
    rcases eq_or_ne l' [] with rfl | hl'
    · exact ⟨a, [], [], by simp, rfl, by simp, by simp⟩
    · obtain ⟨ls₁, ls₂, h₁, h₂, h₃⟩ :=
        List.mergeSort_cons (scoreLe_trans σ) (scoreLe_total σ) a l'
      cases ls₁ with
      | nil =>
        refine ⟨a, [], l', ?_, rfl, ?_, by simp⟩
        · rw [h₁]; simp
        · have s := List.sorted_mergeSort (scoreLe_trans σ) (scoreLe_total σ) (a :: l')
          rw [h₁] at s
          simp only [List.nil_append, List.pairwise_cons] at s
          intro x hx
          rcases List.mem_cons.mp hx with rfl | hx'
          · exact le_refl _
          · have hmem : x ∈ ls₂ := by
              have p := List.mergeSort_perm l' (fun a b => decide (σ b ≤ σ a))
              rw [h₂] at p
              simpa using p.symm.mem_iff.mp hx'
            have := s.1 x hmem
            simpa using this
      | cons c t =>
        obtain ⟨m', p₁, p₂, hhead, hdecomp, hmax, hfirst⟩ := ih hl'
        have hc : m' = c := by
          rw [h₂] at hhead
          simpa using hhead.symm
        subst hc
        have hac : σ a < σ m' := by
          have := h₃ m' (by simp)
          simp only [Bool.not_eq_true', decide_eq_false_iff_not] at this
          omega
        refine ⟨m', a :: p₁, p₂, ?_, ?_, ?_, ?_⟩
        · rw [h₁]; simp
        · rw [hdecomp]; rfl
        · intro x hx
          rcases List.mem_cons.mp hx with rfl | hx'
          · exact le_of_lt hac
          · exact hmax x hx'
        · intro x hx
          rcases List.mem_cons.mp hx with rfl | hx'
          · exact hac
          · exact hfirst x hx'

end SortLemmas

namespace Tmdb

/-- The locale tokens of the localized-title map form a sublist of the
tokens of the candidate map. -/
theorem buildLocalizedTitles_keys_sublist (cmap : List (String × List Candidate))
    (options : ScoreOptions) :
    ((buildLocalizedTitles cmap options).map Prod.fst).Sublist (cmap.map Prod.fst) := by
  induction cmap with
  | nil => simp [buildLocalizedTitles]
  | cons p rest ih =>
    unfold buildLocalizedTitles at ih ⊢
    rw [List.filterMap_cons]
    cases h : selectLocalized p.2 options with
    | none => simpa [h] using ih.cons p.1
    | some e => simpa [h] using ih.cons₂ p.1

/-- If `selectLocalized` returns an entry, that entry is the
projection of the first candidate attaining the maximal score. -/
theorem selectLocalized_firstMax (cs : List Candidate) (options : ScoreOptions)
    (e : LocalizedEntry) (h : selectLocalized cs options = some e) :
    ∃ cs₁ best cs₂, cs = cs₁ ++ best :: cs₂ ∧ e = entryOfCandidate best ∧
      (∀ c ∈ cs, scoreLocalizedCandidate c options ≤ scoreLocalizedCandidate best options) ∧
      (∀ c ∈ cs₁, scoreLocalizedCandidate c options < scoreLocalizedCandidate best options) := by
  unfold selectLocalized at h
  rcases eq_or_ne cs [] with rfl | hne
  · simp [List.mergeSort_nil] at h
  · have hmapne : cs.map (fun c => ScoredCandidate.mk c (scoreLocalizedCandidate c options)) ≠ [] := by
      simpa using hne
    obtain ⟨m, L₁, L₂, hhead, hdecomp, hmax, hfirst⟩ :=
      head_mergeSort_firstMax ScoredCandidate.score
        (cs.map fun c => ScoredCandidate.mk c (scoreLocalizedCandidate c options)) hmapne
    rw [hhead] at h
    simp only [Option.some.injEq] at h
    subst h
    have hback : ∀ x ∈ cs.map (fun c => ScoredCandidate.mk c (scoreLocalizedCandidate c options)),
        x.score = scoreLocalizedCandidate x.candidate options := by
      intro x hx
      obtain ⟨c, -, rfl⟩ := List.mem_map.mp hx
      rfl
    have hmmem : m ∈ cs.map (fun c => ScoredCandidate.mk c (scoreLocalizedCandidate c options)) := by
      rw [hdecomp]; exact List.mem_append_right _ (List.mem_cons_self _ _)
    have hmscore : m.score = scoreLocalizedCandidate m.candidate options := hback m hmmem
    refine ⟨L₁.map ScoredCandidate.candidate, m.candidate, L₂.map ScoredCandidate.candidate,
      ?_, rfl, ?_, ?_⟩
    · have : (cs.map fun c => ScoredCandidate.mk c (scoreLocalizedCandidate c options)).map
          ScoredCandidate.candidate = cs := by
        rw [List.map_map]; exact List.map_id'' (fun _ => rfl) cs
      rw [← this, hdecomp]
      simp
    · intro c hc
      have : ScoredCandidate.mk c (scoreLocalizedCandidate c options) ∈
          cs.map (fun c => ScoredCandidate.mk c (scoreLocalizedCandidate c options)) :=
        List.mem_map_of_mem _ hc
      have hle := hmax _ this
      simpa [hmscore] using hle
    · intro c hc
      obtain ⟨x, hxmem, rfl⟩ := List.mem_map.mp hc
      have hlt := hfirst x hxmem
      have hxcs : x ∈ cs.map (fun c => ScoredCandidate.mk c (scoreLocalizedCandidate c options)) := by
        rw [hdecomp]; exact List.mem_append_left _ hxmem
      have hxscore := hback x hxcs
      rw [hxscore, hmscore] at hlt
      exact hlt

end Tmdb

/-- C1: In the map returned by `buildLocalizedTitles`, every locale
token is associated with at most one chosen candidate (distinct
tokens in the candidate map yield distinct tokens in the result),
namely the one with the highest score among all candidates registered
under that token; when two or more candidates under the same token
have the equal highest score, the candidate registered first
(earliest encounter order) is the one chosen. -/
theorem buildLocalizedTitles_picks_first_highest :
    (∀ (cmap : List (String × List Tmdb.Candidate)) (options : Tmdb.ScoreOptions)
      (token : String) (e : Tmdb.LocalizedEntry),
      (token, e) ∈ Tmdb.buildLocalizedTitles cmap options →
      ∃ cs cs₁ best cs₂, (token, cs) ∈ cmap ∧ cs = cs₁ ++ best :: cs₂ ∧
        e = Tmdb.entryOfCandidate best ∧
        (∀ c ∈ cs,
          Tmdb.scoreLocalizedCandidate c options ≤ Tmdb.scoreLocalizedCandidate best options) ∧
        (∀ c ∈ cs₁,
          Tmdb.scoreLocalizedCandidate c options < Tmdb.scoreLocalizedCandidate best options)) ∧
    (∀ (cmap : List (String × List Tmdb.Candidate)) (options : Tmdb.ScoreOptions),
      (cmap.map Prod.fst).Nodup →
      ((Tmdb.buildLocalizedTitles cmap options).map Prod.fst).Nodup) := by
  constructor
  · intro cmap options token e hmem
    obtain ⟨⟨t, cs⟩, hin, heq⟩ := List.mem_filterMap.mp hmem
    obtain ⟨e', hsel, heq'⟩ := Option.map_eq_some'.mp heq
    injection heq' with h1 h2
    subst h1
    subst h2
    obtain ⟨cs₁, best, cs₂, hdecomp, hentry, hmax, hfirst⟩ :=
      Tmdb.selectLocalized_firstMax cs options _ hsel
    exact ⟨cs, cs₁, best, cs₂, hin, hdecomp, hentry, hmax, hfirst⟩
  · intro cmap options hnd
    exact hnd.sublist (Tmdb.buildLocalizedTitles_keys_sublist cmap options)

/-- Witness for C1 at a concrete input: a single token carrying one
translation candidate, whose entry is chosen. -/
theorem buildLocalizedTitles_picks_first_highest_witness :
    (("fr", ({ title := "B", overview := none, tagline := none,
               source := "translation", type := none } : Tmdb.LocalizedEntry)) ∈
      Tmdb.buildLocalizedTitles
        [("fr", [{ title := "B", source := "translation", normalizedTitle := "b" }])] {}) ∧
    (∃ cs cs₁ best cs₂,
      ("fr", cs) ∈
        [("fr", [({ title := "B", source := "translation",
                    normalizedTitle := "b" } : Tmdb.Candidate)])] ∧
      cs = cs₁ ++ best :: cs₂ ∧
      ({ title := "B", overview := none, tagline := none,
         source := "translation", type := none } : Tmdb.LocalizedEntry) =
        Tmdb.entryOfCandidate best ∧
      (∀ c ∈ cs,
        Tmdb.scoreLocalizedCandidate c {} ≤ Tmdb.scoreLocalizedCandidate best {}) ∧
      (∀ c ∈ cs₁,
        Tmdb.scoreLocalizedCandidate c {} < Tmdb.scoreLocalizedCandidate best {})) ∧
    (([("fr", [({ title := "B", source := "translation",
                  normalizedTitle := "b" } : Tmdb.Candidate)])].map Prod.fst).Nodup ∧
      ((Tmdb.buildLocalizedTitles
        [("fr", [{ title := "B", source := "translation", normalizedTitle := "b" }])] {}).map
        Prod.fst).Nodup) :=
  ⟨by simp [Tmdb.buildLocalizedTitles, Tmdb.selectLocalized, Tmdb.entryOfCandidate],
   buildLocalizedTitles_picks_first_highest.1 _ {} "fr" _
     (by simp [Tmdb.buildLocalizedTitles, Tmdb.selectLocalized, Tmdb.entryOfCandidate]),
   by decide,
   buildLocalizedTitles_picks_first_highest.2 _ {} (by decide)⟩

namespace Helpers

theorem mapGet_nil (k : String) : mapGet [] k = none := rfl

theorem mapGet_mapReplace_self (m : List (String × TitleEntry)) (k : String) (v : TitleEntry)
    (h : m.any (fun p => p.1 = k) = true) :
    mapGet (m.map fun p => if p.1 = k then (k, v) else p) k = some v := by
  induction m with
  | nil => simp at h
  | cons p rest ih =>
    by_cases hp : p.1 = k
    · simp [mapGet, hp]
    · have hr : rest.any (fun p => p.1 = k) = true := by
        simpa [List.any_cons, hp] using h
      simp only [List.map_cons, if_neg hp]
      unfold mapGet at ih ⊢
      rw [List.find?_cons_of_neg _ (by simpa using hp)]
      exact ih hr

theorem mapGet_append_single_self (m : List (String × TitleEntry)) (k : String) (v : TitleEntry)
    (h : m.any (fun p => p.1 = k) = false) :
    mapGet (m ++ [(k, v)]) k = some v := by
  induction m with
  | nil => simp [mapGet]
  | cons p rest ih =>
    simp only [List.any_cons, Bool.or_eq_false_iff] at h
    have hp : ¬ p.1 = k := by simpa using h.1
    rw [List.cons_append]
    unfold mapGet at ih ⊢
    rw [List.find?_cons_of_neg _ (by simpa using hp)]
    exact ih h.2

theorem mapGet_mapSet_self (m : List (String × TitleEntry)) (k : String) (v : TitleEntry) :
    mapGet (mapSet m k v) k = some v := by
  unfold mapSet
  split
  · exact mapGet_mapReplace_self m k v (by assumption)
  · next h => exact mapGet_append_single_self m k v (Bool.eq_false_iff.mpr h)

theorem mapGet_mapReplace_ne (m : List (String × TitleEntry)) (k : String) (v : TitleEntry)
    (t : String) (h : t ≠ k) :
    mapGet (m.map fun p => if p.1 = k then (k, v) else p) t = mapGet m t := by
  induction m with
  | nil => rfl
  | cons p rest ih =>
    by_cases hp : p.1 = k
    · unfold mapGet at ih ⊢
      simp only [List.map_cons, if_pos hp]
      rw [List.find?_cons_of_neg _ (by simpa using (Ne.symm h)),
        List.find?_cons_of_neg _ (by simpa using (hp ▸ Ne.symm h))]
      exact ih
    · unfold mapGet at ih ⊢
      simp only [List.map_cons, if_neg hp]
      by_cases hpt : p.1 = t
      · rw [List.find?_cons_of_pos _ (by simpa using hpt),
          List.find?_cons_of_pos _ (by simpa using hpt)]
      · rw [List.find?_cons_of_neg _ (by simpa using hpt),
          List.find?_cons_of_neg _ (by simpa using hpt)]
        exact ih

theorem mapGet_append_single_ne (m : List (String × TitleEntry)) (k : String) (v : TitleEntry)
    (t : String) (h : t ≠ k) :
    mapGet (m ++ [(k, v)]) t = mapGet m t := by
  induction m with
  | nil => simp [mapGet, Ne.symm h]
  | cons p rest ih =>
    rw [List.cons_append]
    unfold mapGet at ih ⊢
    by_cases hpt : p.1 = t
    · rw [List.find?_cons_of_pos _ (by simpa using hpt),
        List.find?_cons_of_pos _ (by simpa using hpt)]
    · rw [List.find?_cons_of_neg _ (by simpa using hpt),
        List.find?_cons_of_neg _ (by simpa using hpt)]
      exact ih

theorem mapGet_mapSet_ne (m : List (String × TitleEntry)) (k : String) (v : TitleEntry)
    (t : String) (h : t ≠ k) :
    mapGet (mapSet m k v) t = mapGet m t := by
  unfold mapSet
  split
  · exact mapGet_mapReplace_ne m k v t h
  · exact mapGet_append_single_ne m k v t h

theorem mapGet_mapSet_isSome (m : List (String × TitleEntry)) (k : String) (v : TitleEntry)
    (t : String) (h : (mapGet m t).isSome) :
    (mapGet (mapSet m k v) t).isSome := by
  by_cases ht : t = k
  · subst ht; simp [mapGet_mapSet_self]
  · rw [mapGet_mapSet_ne m k v t ht]; exact h

end Helpers

namespace Helpers

theorem status_of_not_skipped (d : Decision) (h : decisionSkipped d = false) :
    ∃ st, d.status = some st ∧ st ≠ "" ∧ st ≠ "pending" ∧ st ≠ "skipped" := by
  unfold decisionSkipped at h
  cases hs : d.status with
  | none => rw [hs] at h; simp [strTruthy] at h
  | some st =>
    rw [hs] at h
    simp only [decide_eq_false_iff_not, not_or] at h
    refine ⟨st, rfl, ?_, ?_, ?_⟩
    · intro hst
      exact h.1 (by simp [strTruthy, hst])
    · intro hst
      exact h.2.1 (by rw [hst])
    · intro hst
      exact h.2.2 (by rw [hst])

theorem entryOfDecision_status (u : String) (d : Decision) (st nt : String) :
    (entryOfDecision u d st nt).status = st := rfl

/-- One `forEach` step of `buildTriageTitleMap` preserves the map
invariant: every stored entry originates from a non-skipped decision
with that normalized title, carries the maximal status rank among all
such decisions processed so far, and every non-skipped processed
decision has an entry under its normalized title. -/
theorem triageStep_inv (norm : Option String → Option String)
    (m : List (String × TitleEntry)) (pre : List (String × Option Decision))
    (url : String) (od : Option Decision)
    (hPM : ∀ t e, mapGet m t = some e →
      (∃ u d, (u, some d) ∈ pre ∧ decisionSkipped d = false ∧ d.status = some e.status ∧
        decisionTitleKey norm d = some t ∧ e = entryOfDecision u d e.status t) ∧
      (∀ u d s, (u, some d) ∈ pre → decisionSkipped d = false →
        decisionTitleKey norm d = some t → d.status = some s →
        triageStatusRank s ≤ triageStatusRank e.status))
    (hCov : ∀ u d t, (u, some d) ∈ pre → decisionSkipped d = false →
      decisionTitleKey norm d = some t → (mapGet m t).isSome) :
    (∀ t e, mapGet (triageStep norm m (url, od)) t = some e →
      (∃ u d, (u, some d) ∈ pre ++ [(url, od)] ∧ decisionSkipped d = false ∧
        d.status = some e.status ∧
        decisionTitleKey norm d = some t ∧ e = entryOfDecision u d e.status t) ∧
      (∀ u d s, (u, some d) ∈ pre ++ [(url, od)] → decisionSkipped d = false →
        decisionTitleKey norm d = some t → d.status = some s →
        triageStatusRank s ≤ triageStatusRank e.status)) ∧
    (∀ u d t, (u, some d) ∈ pre ++ [(url, od)] → decisionSkipped d = false →
      decisionTitleKey norm d = some t → (mapGet (triageStep norm m (url, od)) t).isSome) := by
  have memCase : ∀ (u : String) (d : Decision),
      (u, some d) ∈ pre ++ [(url, od)] → (u, some d) ∈ pre ∨ (url = u ∧ od = some d) := by
    intro u d hmem
    rcases List.mem_append.mp hmem with h | h
    · exact Or.inl h
    · right
      simp only [List.mem_singleton, Prod.mk.injEq] at h
      exact ⟨h.1.symm, h.2.symm⟩
  cases od with
  | none =>
    have hstep : triageStep norm m (url, none) = m := rfl
    rw [hstep]
    refine ⟨?_, ?_⟩
    · intro t e hget
      obtain ⟨hprov, hmax⟩ := hPM t e hget
      refine ⟨?_, ?_⟩
      · obtain ⟨u, d, hmem, h1, h2, h3, h4⟩ := hprov
        exact ⟨u, d, List.mem_append_left _ hmem, h1, h2, h3, h4⟩
      · intro u d s hmem h1 h2 h3
        rcases memCase u d hmem with h | ⟨-, h⟩
        · exact hmax u d s h h1 h2 h3
        · exact absurd h (by simp)
    · intro u d t hmem h1 h2
      rcases memCase u d hmem with h | ⟨-, h⟩
      · exact hCov u d t h h1 h2
      · exact absurd h (by simp)
  | some d₀ =>
    by_cases hsk : decisionSkipped d₀
    · have hstep : triageStep norm m (url, some d₀) = m := by
        unfold triageStep
        simp [hsk]
      rw [hstep]
      refine ⟨?_, ?_⟩
      · intro t e hget
        obtain ⟨hprov, hmax⟩ := hPM t e hget
        refine ⟨?_, ?_⟩
        · obtain ⟨u, d, hmem, h1, h2, h3, h4⟩ := hprov
          exact ⟨u, d, List.mem_append_left _ hmem, h1, h2, h3, h4⟩
        · intro u d s hmem h1 h2 h3
          rcases memCase u d hmem with h | ⟨-, h⟩
          · exact hmax u d s h h1 h2 h3
          · obtain rfl : d₀ = d := by injection h
            exact absurd h1 (by simp [hsk])
      · intro u d t hmem h1 h2
        rcases memCase u d hmem with h | ⟨-, h⟩
        · exact hCov u d t h h1 h2
        · obtain rfl : d₀ = d := by injection h
          exact absurd h1 (by simp [hsk])
    · have hsk' : decisionSkipped d₀ = false := Bool.eq_false_iff.mpr hsk
      obtain ⟨st, hst, -, -, -⟩ := status_of_not_skipped d₀ hsk'
      cases hkey : decisionTitleKey norm d₀ with
      | none =>
        have hstep : triageStep norm m (url, some d₀) = m := by
          simp [triageStep, hsk', hst, hkey]
        rw [hstep]
        refine ⟨?_, ?_⟩
        · intro t e hget
          obtain ⟨hprov, hmax⟩ := hPM t e hget
          refine ⟨?_, ?_⟩
          · obtain ⟨u, d, hmem, h1, h2, h3, h4⟩ := hprov
            exact ⟨u, d, List.mem_append_left _ hmem, h1, h2, h3, h4⟩
          · intro u d s hmem h1 h2 h3
            rcases memCase u d hmem with h | ⟨-, h⟩
            · exact hmax u d s h h1 h2 h3
            · obtain rfl : d₀ = d := by injection h
              rw [hkey] at h2
              exact absurd h2 (by simp)
        · intro u d t hmem h1 h2
          rcases memCase u d hmem with h | ⟨-, h⟩
          · exact hCov u d t h h1 h2
          · obtain rfl : d₀ = d := by injection h
            rw [hkey] at h2
            exact absurd h2 (by simp)
      | some nt =>
        cases hex : mapGet m nt with
        | some existing =>
          by_cases hrank : triageStatusRank st ≥ triageStatusRank existing.status
          · have hstep : triageStep norm m (url, some d₀) =
                mapSet m nt (entryOfDecision url d₀ st nt) := by
              simp [triageStep, hsk', hst, hkey, hex, hrank]
            rw [hstep]
            refine ⟨?_, ?_⟩
            · intro t e hget
              by_cases ht : t = nt
              · subst ht
                rw [mapGet_mapSet_self] at hget
                obtain rfl : entryOfDecision url d₀ st t = e := by injection hget
                refine ⟨?_, ?_⟩
                · exact ⟨url, d₀, List.mem_append_right _ (by simp), hsk', hst,
                    hkey, rfl⟩
                · intro u d s hmem h1 h2 h3
                  rcases memCase u d hmem with h | ⟨-, h⟩
                  · have := (hPM t existing hex).2 u d s h h1 h2 h3
                    exact le_trans this hrank
                  · obtain rfl : d₀ = d := by injection h
                    rw [hst] at h3
                    obtain rfl : st = s := by injection h3
                    exact le_refl _
              · rw [mapGet_mapSet_ne m nt _ t ht] at hget
                obtain ⟨hprov, hmax⟩ := hPM t e hget
                refine ⟨?_, ?_⟩
                · obtain ⟨u, d, hmem, h1, h2, h3, h4⟩ := hprov
                  exact ⟨u, d, List.mem_append_left _ hmem, h1, h2, h3, h4⟩
                · intro u d s hmem h1 h2 h3
                  rcases memCase u d hmem with h | ⟨-, h⟩
                  · exact hmax u d s h h1 h2 h3
                  · obtain rfl : d₀ = d := by injection h
                    rw [hkey] at h2
                    obtain rfl : nt = t := by injection h2
                    exact absurd rfl ht
            · intro u d t hmem h1 h2
              rcases memCase u d hmem with h | ⟨-, h⟩
              · exact mapGet_mapSet_isSome m nt _ t (by
                  have := hCov u d t h h1 h2
                  exact this)
              · obtain rfl : d₀ = d := by injection h
                rw [hkey] at h2
                obtain rfl : nt = t := by injection h2
                rw [mapGet_mapSet_self]
                rfl
          · have hstep : triageStep norm m (url, some d₀) = m := by
              simp [triageStep, hsk', hst, hkey, hex, hrank]
            rw [hstep]
            refine ⟨?_, ?_⟩
            · intro t e hget
              obtain ⟨hprov, hmax⟩ := hPM t e hget
              refine ⟨?_, ?_⟩
              · obtain ⟨u, d, hmem, h1, h2, h3, h4⟩ := hprov
                exact ⟨u, d, List.mem_append_left _ hmem, h1, h2, h3, h4⟩
              · intro u d s hmem h1 h2 h3
                rcases memCase u d hmem with h | ⟨-, h⟩
                · exact hmax u d s h h1 h2 h3
                · obtain rfl : d₀ = d := by injection h
                  rw [hkey] at h2
                  obtain rfl : nt = t := by injection h2
                  rw [hst] at h3
                  obtain rfl : st = s := by injection h3
                  have he : e = existing := by
                    rw [hget] at hex
                    injection hex
                  subst he
                  omega
            · intro u d t hmem h1 h2
              rcases memCase u d hmem with h | ⟨-, h⟩
              · exact hCov u d t h h1 h2
              · obtain rfl : d₀ = d := by injection h
                rw [hkey] at h2
                obtain rfl : nt = t := by injection h2
                rw [hex]
                rfl
        | none =>
          have hstep : triageStep norm m (url, some d₀) =
              mapSet m nt (entryOfDecision url d₀ st nt) := by
            simp [triageStep, hsk', hst, hkey, hex]
          rw [hstep]
          refine ⟨?_, ?_⟩
          · intro t e hget
            by_cases ht : t = nt
            · subst ht
              rw [mapGet_mapSet_self] at hget
              obtain rfl : entryOfDecision url d₀ st t = e := by injection hget
              refine ⟨?_, ?_⟩
              · exact ⟨url, d₀, List.mem_append_right _ (by simp), hsk', hst, hkey, rfl⟩
              · intro u d s hmem h1 h2 h3
                rcases memCase u d hmem with h | ⟨-, h⟩
                · have := hCov u d t h h1 h2
                  rw [hex] at this
                  exact absurd this (by simp)
                · obtain rfl : d₀ = d := by injection h
                  rw [hst] at h3
                  obtain rfl : st = s := by injection h3
                  exact le_refl _
            · rw [mapGet_mapSet_ne m nt _ t ht] at hget
              obtain ⟨hprov, hmax⟩ := hPM t e hget
              refine ⟨?_, ?_⟩
              · obtain ⟨u, d, hmem, h1, h2, h3, h4⟩ := hprov
                exact ⟨u, d, List.mem_append_left _ hmem, h1, h2, h3, h4⟩
              · intro u d s hmem h1 h2 h3
                rcases memCase u d hmem with h | ⟨-, h⟩
                · exact hmax u d s h h1 h2 h3
                · obtain rfl : d₀ = d := by injection h
                  rw [hkey] at h2
                  obtain rfl : nt = t := by injection h2
                  exact absurd rfl ht
          · intro u d t hmem h1 h2
            rcases memCase u d hmem with h | ⟨-, h⟩
            · exact mapGet_mapSet_isSome m nt _ t (hCov u d t h h1 h2)
            · obtain rfl : d₀ = d := by injection h
              rw [hkey] at h2
              obtain rfl : nt = t := by injection h2
              rw [mapGet_mapSet_self]
              rfl

/-- The `forEach` fold of `buildTriageTitleMap` maintains the combined
provenance/maximality/coverage invariant over the processed prefix. -/
theorem triageFold_inv (norm : Option String → Option String) :
    ∀ (ds : List (String × Option Decision)) (m : List (String × TitleEntry))
      (pre : List (String × Option Decision)),
    (∀ t e, mapGet m t = some e →
      (∃ u d, (u, some d) ∈ pre ∧ decisionSkipped d = false ∧ d.status = some e.status ∧
        decisionTitleKey norm d = some t ∧ e = entryOfDecision u d e.status t) ∧
      (∀ u d s, (u, some d) ∈ pre → decisionSkipped d = false →
        decisionTitleKey norm d = some t → d.status = some s →
        triageStatusRank s ≤ triageStatusRank e.status)) →
    (∀ u d t, (u, some d) ∈ pre → decisionSkipped d = false →
      decisionTitleKey norm d = some t → (mapGet m t).isSome) →
    (∀ t e, mapGet (ds.foldl (triageStep norm) m) t = some e →
      (∃ u d, (u, some d) ∈ pre ++ ds ∧ decisionSkipped d = false ∧
        d.status = some e.status ∧
        decisionTitleKey norm d = some t ∧ e = entryOfDecision u d e.status t) ∧
      (∀ u d s, (u, some d) ∈ pre ++ ds → decisionSkipped d = false →
        decisionTitleKey norm d = some t → d.status = some s →
        triageStatusRank s ≤ triageStatusRank e.status)) := by
  intro ds
  induction ds with
  | nil =>
    intro m pre hPM _hCov
    simpa using hPM
  | cons p ds' ih =>
    intro m pre hPM hCov
    obtain ⟨url, od⟩ := p
    obtain ⟨hPM', hCov'⟩ := triageStep_inv norm m pre url od hPM hCov
    have := ih (triageStep norm m (url, od)) (pre ++ [(url, od)]) hPM' hCov'
    simpa [List.append_assoc] using this

end Helpers

/-- C2: `buildTriageTitleMap` skips every decision whose status is
missing, `'pending'` or `'skipped'` (every stored entry originates
from a non-skipped decision and never carries those statuses); for
each normalized title the stored entry carries the maximal status
rank among all non-skipped decisions registered under that title; a
later decision replaces the stored one exactly when its rank is `≥`
(illustrated: pending+verified keeps only verified; verified then
blocked yields blocked; equal ranks let the later decision win;
a strictly lower later rank does not replace). -/
theorem buildTriageTitleMap_spec :
    (∀ (norm : Option String → Option String)
      (decisions : List (String × Option Helpers.Decision)) (t : String)
      (e : Helpers.TitleEntry),
      Helpers.mapGet (Helpers.buildTriageTitleMap norm decisions) t = some e →
      (e.status ≠ "" ∧ e.status ≠ "pending" ∧ e.status ≠ "skipped") ∧
      (∃ u d, (u, some d) ∈ decisions ∧ Helpers.decisionSkipped d = false ∧
        d.status = some e.status ∧ Helpers.decisionTitleKey norm d = some t ∧
        e = Helpers.entryOfDecision u d e.status t) ∧
      (∀ u d s, (u, some d) ∈ decisions → Helpers.decisionSkipped d = false →
        Helpers.decisionTitleKey norm d = some t → d.status = some s →
        Helpers.triageStatusRank s ≤ Helpers.triageStatusRank e.status)) ∧
    ((Helpers.buildTriageTitleMap (fun _ => none)
        [("u1", some { status := some "pending", normalizedTitle := some "t" }),
         ("u2", some { status := some "verified", normalizedTitle := some "t" })]).map
      (fun p => (p.1, p.2.status, p.2.sourceDownloadUrl)) = [("t", "verified", "u2")]) ∧
    ((Helpers.buildTriageTitleMap (fun _ => none)
        [("u1", some { status := some "verified", normalizedTitle := some "t" }),
         ("u2", some { status := some "blocked", normalizedTitle := some "t" })]).map
      (fun p => (p.1, p.2.status, p.2.sourceDownloadUrl)) = [("t", "blocked", "u2")]) ∧
    ((Helpers.buildTriageTitleMap (fun _ => none)
        [("u1", some { status := some "blocked", normalizedTitle := some "t" }),
         ("u2", some { status := some "blocked", normalizedTitle := some "t" })]).map
      (fun p => (p.1, p.2.status, p.2.sourceDownloadUrl)) = [("t", "blocked", "u2")]) ∧
    ((Helpers.buildTriageTitleMap (fun _ => none)
        [("u1", some { status := some "blocked", normalizedTitle := some "t" }),
         ("u2", some { status := some "verified", normalizedTitle := some "t" })]).map
      (fun p => (p.1, p.2.status, p.2.sourceDownloadUrl)) = [("t", "blocked", "u1")]) := by
  refine ⟨?_, by decide, by decide, by decide, by decide⟩
  intro norm decisions t e hget
  have base := Helpers.triageFold_inv norm decisions [] []
    (by intro t e h; simp [Helpers.mapGet] at h)
    (by intro u d t h; simp at h)
  unfold Helpers.buildTriageTitleMap at hget
  obtain ⟨hprov, hmax⟩ := base t e (by simpa using hget)
  refine ⟨?_, by simpa using hprov, by simpa using hmax⟩
  obtain ⟨u, d, hmem, hns, hst, hkey, hentry⟩ := hprov
  obtain ⟨st, hst', h1, h2, h3⟩ := Helpers.status_of_not_skipped d hns
  rw [hst'] at hst
  have : st = e.status := by injection hst
  subst this
  exact ⟨h1, h2, h3⟩

/-- Witness for C2 at the pending+verified scenario input. -/
theorem buildTriageTitleMap_spec_witness :
    (Helpers.mapGet (Helpers.buildTriageTitleMap (fun _ => none)
        [("u1", some { status := some "pending", normalizedTitle := some "t" }),
         ("u2", some { status := some "verified", normalizedTitle := some "t" })]) "t" =
      some { status := "verified", normalizedTitle := "t", sourceDownloadUrl := "u2" }) ∧
    ((({ status := "verified", normalizedTitle := "t", sourceDownloadUrl := "u2" } : Helpers.TitleEntry).status ≠ "" ∧
      ({ status := "verified", normalizedTitle := "t", sourceDownloadUrl := "u2" } : Helpers.TitleEntry).status ≠ "pending" ∧
      ({ status := "verified", normalizedTitle := "t", sourceDownloadUrl := "u2" } : Helpers.TitleEntry).status ≠ "skipped") ∧
     (∃ u d,
        (u, some d) ∈
          [("u1", some ({ status := some "pending", normalizedTitle := some "t" } : Helpers.Decision)),
           ("u2", some { status := some "verified", normalizedTitle := some "t" })] ∧
        Helpers.decisionSkipped d = false ∧
        d.status = some ({ status := "verified", normalizedTitle := "t", sourceDownloadUrl := "u2" } : Helpers.TitleEntry).status ∧
        Helpers.decisionTitleKey (fun _ => none) d = some "t" ∧
        ({ status := "verified", normalizedTitle := "t", sourceDownloadUrl := "u2" } : Helpers.TitleEntry) =
          Helpers.entryOfDecision u d ({ status := "verified", normalizedTitle := "t", sourceDownloadUrl := "u2" } : Helpers.TitleEntry).status "t") ∧
     (∀ u d s,
        (u, some d) ∈
          [("u1", some ({ status := some "pending", normalizedTitle := some "t" } : Helpers.Decision)),
           ("u2", some { status := some "verified", normalizedTitle := some "t" })] →
        Helpers.decisionSkipped d = false →
        Helpers.decisionTitleKey (fun _ => none) d = some "t" → d.status = some s →
        Helpers.triageStatusRank s ≤
          Helpers.triageStatusRank ({ status := "verified", normalizedTitle := "t", sourceDownloadUrl := "u2" } : Helpers.TitleEntry).status)) :=
  ⟨by decide, buildTriageTitleMap_spec.1 (fun _ => none) _ "t" _ (by decide)⟩

/-- C3: for every array of results and positive finite bound `M`,
every item `applyMaxSizeFilter` keeps has size `≤ M` or a non-finite
(unknown) size, and conversely every input item with unknown size —
and every input item with size `≤ M` — is retained (an unknown size
is never filtered out); when the bound is not a positive finite
number or the input is not an array, the input is returned
unchanged. -/
theorem applyMaxSizeFilter_spec :
    (∀ (rs : List Helpers.SR) (m : Int), 0 < m →
      ∃ out, Helpers.applyMaxSizeFilter (some rs) (some m) = some out ∧
        (∀ r ∈ out, r.size = none ∨ ∃ s, r.size = some s ∧ s ≤ m) ∧
        (∀ r ∈ rs, r.size = none → r ∈ out) ∧
        (∀ r ∈ rs, ∀ s, r.size = some s → s ≤ m → r ∈ out)) ∧
    (∀ rs, Helpers.applyMaxSizeFilter rs none = rs) ∧
    (∀ rs m, m ≤ 0 → Helpers.applyMaxSizeFilter rs (some m) = rs) ∧
    (∀ m, Helpers.applyMaxSizeFilter none m = none) := by
  refine ⟨?_, ?_, ?_, ?_⟩
  · intro rs m hm
    simp only [Helpers.applyMaxSizeFilter, if_neg (not_le.mpr hm)]
    refine ⟨_, rfl, ?_, ?_, ?_⟩
    · intro r hr
      have := (List.mem_filter.mp hr).2
      cases hs : r.size with
      | none => exact Or.inl rfl
      | some s =>
        rw [hs] at this
        simp only [decide_eq_true_eq] at this
        exact Or.inr ⟨s, rfl, this⟩
    · intro r hr hs
      exact List.mem_filter.mpr ⟨hr, by rw [hs]⟩
    · intro r hr s hs hsm
      exact List.mem_filter.mpr ⟨hr, by rw [hs]; simpa using hsm⟩
  · intro rs
    cases rs <;> rfl
  · intro rs m hm
    cases rs with
    | none => rfl
    | some l => simp [Helpers.applyMaxSizeFilter, hm]
  · intro m
    cases m <;> rfl

/-- Witness for C3 at concrete inputs: a positive bound filters by
size keeping the unknown-size and small items, non-finite and
non-positive bounds and a non-array input are no-ops. -/
theorem applyMaxSizeFilter_spec_witness :
    ((0 : Int) < 10 ∧
      ∃ out, Helpers.applyMaxSizeFilter
          (some [{ size := some 5 }, { size := some 20 }, { size := none }]) (some 10) =
          some out ∧
        (∀ r ∈ out, r.size = none ∨ ∃ s, r.size = some s ∧ s ≤ 10) ∧
        (∀ r ∈ ([{ size := some 5 }, { size := some 20 },
            { size := none }] : List Helpers.SR), r.size = none → r ∈ out) ∧
        (∀ r ∈ ([{ size := some 5 }, { size := some 20 },
            { size := none }] : List Helpers.SR), ∀ s, r.size = some s → s ≤ 10 →
          r ∈ out)) ∧
    (Helpers.applyMaxSizeFilter (some [{ size := some 5 }]) none =
      some [{ size := some 5 }]) ∧
    ((-1 : Int) ≤ 0 ∧ Helpers.applyMaxSizeFilter (some [{ size := some 5 }]) (some (-1)) =
      some [{ size := some 5 }]) ∧
    (Helpers.applyMaxSizeFilter none (some 7) = none) :=
  ⟨⟨by decide, applyMaxSizeFilter_spec.1 _ 10 (by decide)⟩,
   applyMaxSizeFilter_spec.2.1 _,
   ⟨by decide, applyMaxSizeFilter_spec.2.2.1 _ (-1) (by decide)⟩,
   applyMaxSizeFilter_spec.2.2.2 _⟩

namespace Helpers

theorem qsLe_trans : ∀ a b c : SR, qsLe a b → qsLe b c → qsLe a c := by
  intro a b c hab hbc
  unfold qsLe compareQualityThenSize at *
  simp only [decide_eq_true_eq] at *
  split_ifs at * <;> omega

theorem qsLe_total : ∀ a b : SR, qsLe a b || qsLe b a := by
  intro a b
  unfold qsLe compareQualityThenSize
  simp only [Bool.or_eq_true, decide_eq_true_eq]
  split_ifs <;> omega

end Helpers

/-- C4: with sort mode `'language_quality_size'` and a non-empty
preferred language, `sortAnnotatedResults` returns the
preferred-language partition (each matching result) followed by the
non-matching partition, each partition being a permutation of the
corresponding filter of the input and individually sorted according
to `compareQualityThenSize`. -/
theorem sortAnnotatedResults_language_first (results : List Helpers.SR) (p : String)
    (hp : p ≠ "") :
    ∃ P O, Helpers.sortAnnotatedResults results (some "language_quality_size") (some p) =
        P ++ O ∧
      P.Perm (results.filter fun r => Helpers.resultMatchesPreferredLanguage r (some p)) ∧
      O.Perm (results.filter fun r => ¬ Helpers.resultMatchesPreferredLanguage r (some p)) ∧
      (∀ r ∈ P, Helpers.resultMatchesPreferredLanguage r (some p) = true) ∧
      (∀ r ∈ O, Helpers.resultMatchesPreferredLanguage r (some p) = false) ∧
      P.Pairwise (fun a b => Helpers.compareQualityThenSize a b ≤ 0) ∧
      O.Pairwise (fun a b => Helpers.compareQualityThenSize a b ≤ 0) := by
  rcases eq_or_ne results [] with rfl | hne
  · exact ⟨[], [], by simp [Helpers.sortAnnotatedResults], by simp, by simp,
      by simp, by simp, by simp, by simp⟩
  · have hempty : results.isEmpty = false := by
      cases results with
      | nil => exact absurd rfl hne
      | cons a l => rfl
    have hcond : some "language_quality_size" = some "language_quality_size" ∧
        strTruthy (some p) := ⟨rfl, by simp [strTruthy, hp]⟩
    have heq : Helpers.sortAnnotatedResults results (some "language_quality_size") (some p) =
        (results.filter fun r =>
          Helpers.resultMatchesPreferredLanguage r (some p)).mergeSort Helpers.qsLe ++
        (results.filter fun r =>
          ¬ Helpers.resultMatchesPreferredLanguage r (some p)).mergeSort Helpers.qsLe := by
      unfold Helpers.sortAnnotatedResults
      rw [if_neg (by simp [hempty]), if_pos hcond]
    refine ⟨_, _, heq, List.mergeSort_perm _ _, List.mergeSort_perm _ _, ?_, ?_, ?_, ?_⟩
    · intro r hr
      exact (List.mem_filter.mp (List.mem_mergeSort.mp hr)).2
    · intro r hr
      have := (List.mem_filter.mp (List.mem_mergeSort.mp hr)).2
      simpa using this
    · exact (List.sorted_mergeSort Helpers.qsLe_trans Helpers.qsLe_total _).imp
        (fun h => by simpa [Helpers.qsLe] using h)
    · exact (List.sorted_mergeSort Helpers.qsLe_trans Helpers.qsLe_total _).imp
        (fun h => by simpa [Helpers.qsLe] using h)

/-- Witness for C4 at a concrete input: three results, two matching
the preferred language `"en"`. -/
theorem sortAnnotatedResults_language_first_witness :
    "en" ≠ "" ∧
    (∃ P O, Helpers.sortAnnotatedResults
        [{ qualityRank := 1, language := some "en" },
         { qualityRank := 5, language := some "fr" },
         { qualityRank := 9, language := some "en" }]
        (some "language_quality_size") (some "en") = P ++ O ∧
      P.Perm (([{ qualityRank := 1, language := some "en" },
         { qualityRank := 5, language := some "fr" },
         { qualityRank := 9, language := some "en" }] : List Helpers.SR).filter
          fun r => Helpers.resultMatchesPreferredLanguage r (some "en")) ∧
      O.Perm (([{ qualityRank := 1, language := some "en" },
         { qualityRank := 5, language := some "fr" },
         { qualityRank := 9, language := some "en" }] : List Helpers.SR).filter
          fun r => ¬ Helpers.resultMatchesPreferredLanguage r (some "en")) ∧
      (∀ r ∈ P, Helpers.resultMatchesPreferredLanguage r (some "en") = true) ∧
      (∀ r ∈ O, Helpers.resultMatchesPreferredLanguage r (some "en") = false) ∧
      P.Pairwise (fun a b => Helpers.compareQualityThenSize a b ≤ 0) ∧
      O.Pairwise (fun a b => Helpers.compareQualityThenSize a b ≤ 0)) :=
  ⟨by decide, sortAnnotatedResults_language_first _ "en" (by decide)⟩

/-- `mergeSort` on a two-element list. -/
theorem mergeSort_pair {α : Type _} (le : α → α → Bool) (a b : α) :
    [a, b].mergeSort le = if le a b then [a, b] else [b, a] := by
  rw [List.mergeSort]
  simp [List.merge]

namespace Helpers

/-- The contents of the caller's array after `prepareSortedResults`:
reordered in place exactly when the size filter passed the array
through unchanged and the plain (non-language) sort branch ran on a
non-empty array. -/
theorem prepareSortedResultsM_snd (results : List SR) (ms : Option Int)
    (sm pl : Option String) :
    (prepareSortedResultsM results ms sm pl).2 =
      if filterActive ms = false ∧ langMode sm pl = false ∧ results.isEmpty = false
      then results.mergeSort qsLe else results := by
  unfold prepareSortedResultsM
  by_cases hf : filterActive ms
  · simp only [hf, if_true]
    split_ifs with h <;> simp_all
  · simp only [hf, Bool.false_eq_true, if_false]
    by_cases he : results.isEmpty
    · simp [he]
    · by_cases hl : langMode sm pl
      · simp [he, hl]
      · simp [he, hl]

end Helpers

/-- C5 counterexample: with empty options (no size bound, default
sort mode) the size filter passes the caller's array through by
reference, and the non-language branch sorts that very array in
place, so after the call the input array's element order has changed
— `prepareSortedResults` is not free of side effects. -/
theorem prepareSortedResults_mutates_input :
    (Helpers.prepareSortedResultsM
        [{ qualityRank := 1 }, { qualityRank := 2 }] none none none).2 ≠
      [{ qualityRank := 1 }, { qualityRank := 2 }] := by
  rw [Helpers.prepareSortedResultsM_snd, if_pos ⟨rfl, rfl, rfl⟩, mergeSort_pair]
  decide

/-- C5 amended: the returned list is a pure function of
`(results, options)` (the model is deterministic), but the call may
reorder the caller's input array in place; the array's contents after
the call are always a permutation of its previous contents, and they
are unchanged whenever the size filter actually filtered (fresh
array) or the language-first sort branch ran (which sorts fresh
partition arrays). -/
theorem prepareSortedResults_frame :
    ∀ (results : List Helpers.SR) (ms : Option Int) (sm pl : Option String),
      ((Helpers.prepareSortedResultsM results ms sm pl).2).Perm results ∧
      (Helpers.filterActive ms = true →
        (Helpers.prepareSortedResultsM results ms sm pl).2 = results) ∧
      (Helpers.langMode sm pl = true →
        (Helpers.prepareSortedResultsM results ms sm pl).2 = results) := by
  intro results ms sm pl
  rw [Helpers.prepareSortedResultsM_snd]
  refine ⟨?_, ?_, ?_⟩
  · split_ifs with h
    · exact List.mergeSort_perm _ _
    · exact List.Perm.refl _
  · intro hf
    rw [if_neg]
    intro h
    rw [hf] at h
    exact absurd h.1 (by simp)
  · intro hl
    rw [if_neg]
    intro h
    rw [hl] at h
    exact absurd h.2.1 (by simp)

/-- Witness for C5 (amended) at concrete inputs: an active size
filter and a language-first sort each leave the input array
unchanged. -/
theorem prepareSortedResults_frame_witness :
    ((Helpers.prepareSortedResultsM [{ qualityRank := 1 }] (some 5) none none).2).Perm
      [{ qualityRank := 1 }] ∧
    Helpers.filterActive (some 5) = true ∧
    (Helpers.prepareSortedResultsM [{ qualityRank := 1 }] (some 5) none none).2 =
      [{ qualityRank := 1 }] ∧
    Helpers.langMode (some "language_quality_size") (some "en") = true ∧
    (Helpers.prepareSortedResultsM [{ qualityRank := 1 }] none
        (some "language_quality_size") (some "en")).2 = [{ qualityRank := 1 }] :=
  ⟨(prepareSortedResults_frame _ (some 5) none none).1,
   by decide,
   (prepareSortedResults_frame _ (some 5) none none).2.1 (by decide),
   by decide,
   (prepareSortedResults_frame _ none (some "language_quality_size") (some "en")).2.2
     (by decide)⟩

namespace JS

theorem toLowerCaseE_str (s : String) : toLowerCaseE (JSVal.str s) = .ok (strToLower s) := rfl

theorem someLangMatches_cons (normalized : String) (l : JSVal) (rest : List JSVal) :
    someLangMatches normalized (l :: rest) =
      if truthy l then do
        let s ← toLowerCaseE l
        if s = normalized then pure true else someLangMatches normalized rest
      else someLangMatches normalized rest := rfl

theorem someLangMatches_ok (normalized : String) :
    ∀ xs : List JSVal,
      (∀ l ∈ xs, truthy l = false ∨ ∃ s, l = JSVal.str s) →
      ∃ b, someLangMatches normalized xs = .ok b := by
  intro xs
  induction xs with
  | nil => exact fun _ => ⟨false, rfl⟩
  | cons l rest ih =>
    intro h
    obtain ⟨b, hb⟩ := ih fun x hx => h x (by simp [hx])
    rcases h l (by simp) with hf | ⟨s, rfl⟩
    · rw [someLangMatches_cons, if_neg (by simp [hf])]
      exact ⟨b, hb⟩
    · by_cases hs : s = ""
      · subst hs
        rw [someLangMatches_cons, if_neg (by simp [truthy])]
        exact ⟨b, hb⟩
      · rw [someLangMatches_cons, if_pos (by simp [truthy, hs])]
        by_cases he : strToLower s = normalized
        · refine ⟨true, ?_⟩
          show (if strToLower s = normalized then pure true
            else someLangMatches normalized rest : Except Unit Bool) = Except.ok true
          rw [if_pos he]
          rfl
        · refine ⟨b, ?_⟩
          show (if strToLower s = normalized then pure true
            else someLangMatches normalized rest : Except Unit Bool) = Except.ok b
          rw [if_neg he]
          exact hb

/-- The tail of `resultMatchesPreferredLanguageE`, entered once the
`languages` array is consulted. -/
theorem langsTail_ok (result : JSVal) (n : String)
    (h3 : ∀ xs, getField result "languages" = JSVal.arr xs →
      ∀ l ∈ xs, truthy l = false ∨ ∃ s, l = JSVal.str s) :
    ∃ b, (match getField result "languages" with
      | .arr langs => someLangMatches n langs
      | _ => (.ok false : Except Unit Bool)) = .ok b := by
  cases hlangs : getField result "languages" with
  | arr xs => exact someLangMatches_ok n xs (h3 xs hlangs)
  | undef => exact ⟨false, rfl⟩
  | nullV => exact ⟨false, rfl⟩
  | bool b => exact ⟨false, rfl⟩
  | num m => exact ⟨false, rfl⟩
  | nan => exact ⟨false, rfl⟩
  | str s2 => exact ⟨false, rfl⟩
  | obj fs => exact ⟨false, rfl⟩

end JS

/-- C6 counterexample: `resultMatchesPreferredLanguage({}, 1)` throws
a `TypeError` — `preferredLanguage` is truthy, so the code calls
`(1).toLowerCase()`, which does not exist — contradicting the claim
that every result post-processor returns normally on every input. -/
theorem resultMatchesPreferredLanguage_throws :
    JS.resultMatchesPreferredLanguageE (JS.JSVal.obj []) (JS.JSVal.num 1) =
      .error () := rfl

/-- C6 amended: `resultMatchesPreferredLanguage` returns normally
whenever `preferredLanguage` and the result's language fields are
strings or falsy (it can throw a `TypeError` only when a truthy
non-string occupies one of those positions), and the explicitly
guarded post-processors — here `applyMaxSizeFilter` over arbitrary
JavaScript values — return normally on every input. -/
theorem resultPostProcessors_graceful :
    (∀ result pref : JS.JSVal,
      (JS.truthy pref = false ∨ ∃ s, pref = JS.JSVal.str s) →
      (JS.truthy (JS.getField result "language") = false ∨
        ∃ s, JS.getField result "language" = JS.JSVal.str s) →
      (∀ xs, JS.getField result "languages" = JS.JSVal.arr xs →
        ∀ l ∈ xs, JS.truthy l = false ∨ ∃ s, l = JS.JSVal.str s) →
      ∃ b, JS.resultMatchesPreferredLanguageE result pref = .ok b) ∧
    (∀ results maxSizeBytes : JS.JSVal,
      ∃ out, JS.applyMaxSizeFilterE results maxSizeBytes = .ok out) := by
  constructor
  · intro result pref h1 h2 h3
    by_cases hguard : ¬ JS.truthy pref ∨ ¬ JS.truthy result
    · refine ⟨false, ?_⟩
      unfold JS.resultMatchesPreferredLanguageE
      rw [if_pos hguard]
    · rcases h1 with hf | ⟨s, rfl⟩
      · exact absurd (Or.inl (by simp [hf])) hguard
      · unfold JS.resultMatchesPreferredLanguageE
        rw [if_neg hguard]
        show ∃ b, (match (if JS.truthy (JS.getField result "language") then
                match JS.toLowerCaseE (JS.getField result "language") with
                | Except.error e => Except.error e
                | Except.ok l => Except.ok (decide (l = strToLower s))
               else Except.ok false : Except Unit Bool) with
          | Except.error e => Except.error e
          | Except.ok firstMatches =>
            if firstMatches then Except.ok true
            else
              match JS.getField result "languages" with
              | JS.JSVal.arr langs => JS.someLangMatches (strToLower s) langs
              | _ => Except.ok false) = Except.ok b
        by_cases hlt : JS.truthy (JS.getField result "language")
        · rcases h2 with hlf | ⟨ls, hls⟩
          · exact absurd hlt (by simp [hlf])
          · rw [if_pos hlt, hls, JS.toLowerCaseE_str]
            by_cases he : strToLower ls = strToLower s
            · exact ⟨true, by simp [he]⟩
            · obtain ⟨b, hb⟩ := JS.langsTail_ok result (strToLower s) h3
              refine ⟨b, ?_⟩
              simpa [he] using hb
        · rw [if_neg hlt]
          obtain ⟨b, hb⟩ := JS.langsTail_ok result (strToLower s) h3
          exact ⟨b, by simpa using hb⟩
  · intro rs ms
    cases rs with
    | arr elems =>
      cases ms with
      | num m =>
        by_cases h : m ≤ 0
        · exact ⟨JS.JSVal.arr elems, by simp [JS.applyMaxSizeFilterE, h]⟩
        · exact ⟨JS.JSVal.arr (elems.filter fun r =>
            match JS.optSize r with
            | JS.JSVal.num s => decide (s ≤ m)
            | _ => true), by simp [JS.applyMaxSizeFilterE, h]⟩
      | undef => exact ⟨_, rfl⟩
      | nullV => exact ⟨_, rfl⟩
      | bool b => exact ⟨_, rfl⟩
      | nan => exact ⟨_, rfl⟩
      | str s => exact ⟨_, rfl⟩
      | arr a => exact ⟨_, rfl⟩
      | obj o => exact ⟨_, rfl⟩
    | undef => cases ms <;> exact ⟨_, rfl⟩
    | nullV => cases ms <;> exact ⟨_, rfl⟩
    | bool b => cases ms <;> exact ⟨_, rfl⟩
    | num n => cases ms <;> exact ⟨_, rfl⟩
    | nan => cases ms <;> exact ⟨_, rfl⟩
    | str s => cases ms <;> exact ⟨_, rfl⟩
    | obj o => cases ms <;> exact ⟨_, rfl⟩

/-- Witness for C6 (amended) at a concrete input: a result whose
`language` field is the string `"EN"`, matched against `"en"`, and a
non-array input to the size filter. -/
theorem resultPostProcessors_graceful_witness :
    (JS.truthy (JS.JSVal.str "en") = false ∨ ∃ s, JS.JSVal.str "en" = JS.JSVal.str s) ∧
    (JS.truthy (JS.getField (JS.JSVal.obj [("language", JS.JSVal.str "EN")]) "language") =
        false ∨
      ∃ s, JS.getField (JS.JSVal.obj [("language", JS.JSVal.str "EN")]) "language" =
        JS.JSVal.str s) ∧
    (∀ xs, JS.getField (JS.JSVal.obj [("language", JS.JSVal.str "EN")]) "languages" =
        JS.JSVal.arr xs →
      ∀ l ∈ xs, JS.truthy l = false ∨ ∃ s, l = JS.JSVal.str s) ∧
    (∃ b, JS.resultMatchesPreferredLanguageE
        (JS.JSVal.obj [("language", JS.JSVal.str "EN")]) (JS.JSVal.str "en") = .ok b) ∧
    (∃ out, JS.applyMaxSizeFilterE (JS.JSVal.num 3) JS.JSVal.nan = .ok out) :=
  ⟨Or.inr ⟨"en", rfl⟩,
   Or.inr ⟨"EN", rfl⟩,
   fun _ h => by simp [JS.getField] at h,
   resultPostProcessors_graceful.1 _ _ (Or.inr ⟨"en", rfl⟩) (Or.inr ⟨"EN", rfl⟩)
     (fun _ h => by simp [JS.getField] at h),
   resultPostProcessors_graceful.2 _ _⟩

/-- C7: a translation candidate whose language equals the work's
original language and whose title contains non-ASCII characters, with
no other signals active, scores 40+6+3 = 49; an alternative-title
candidate of type `"dvd"` with no other signals scores 15−3 = 12; the
former is strictly higher. -/
theorem scoreLocalizedCandidate_translation_beats_dvd
    (t a : Tmdb.Candidate) (o : Tmdb.ScoreOptions) (L : String)
    (h1 : t.source = "translation") (h2 : t.meta.type = none)
    (h3 : t.meta.iso639 = some L) (h4 : o.originalLanguage = some L) (hL : L ≠ "")
    (h5 : t.meta.iso3166 = none) (h6 : t.containsNonAscii = true)
    (h7 : t.normalizedTitle ≠ o.defaultNormalized)
    (h8 : t.normalizedTitle ≠ o.originalNormalized)
    (g1 : a.source = "alternative") (g2 : a.meta.type = some "dvd")
    (g3 : a.meta.iso639 = none) (g4 : a.meta.iso3166 = none)
    (g5 : a.containsNonAscii = false)
    (g6 : a.normalizedTitle ≠ o.defaultNormalized)
    (g7 : a.normalizedTitle ≠ o.originalNormalized) :
    Tmdb.scoreLocalizedCandidate t o = 49 ∧ Tmdb.scoreLocalizedCandidate a o = 12 ∧
      Tmdb.scoreLocalizedCandidate a o < Tmdb.scoreLocalizedCandidate t o := by
  have ht : Tmdb.scoreLocalizedCandidate t o = 49 := by
    unfold Tmdb.scoreLocalizedCandidate
    rw [h1, h2, h3, h4, h5, h6]
    simp [hL, h7, h8]
  have ha : Tmdb.scoreLocalizedCandidate a o = 12 := by
    unfold Tmdb.scoreLocalizedCandidate
    rw [g1, g2, g3, g4, g5, h4]
    simp [g6, g7, show Tmdb.typeIsOfficialLike "dvd" = false from by decide,
      show Tmdb.typeIsFestivalLike "dvd" = true from by decide]
  exact ⟨ht, ha, by rw [ht, ha]; decide⟩

/-- Witness for C7 at concrete candidates. -/
theorem scoreLocalizedCandidate_translation_beats_dvd_witness :
    Tmdb.scoreLocalizedCandidate
      { title := "É", source := "translation", normalizedTitle := "x",
        containsNonAscii := true, meta := { iso639 := some "fr" } }
      { defaultNormalized := "d", originalNormalized := "o",
        originalLanguage := some "fr" } = 49 ∧
    Tmdb.scoreLocalizedCandidate
      { title := "T", source := "alternative", normalizedTitle := "y",
        meta := { type := some "dvd" } }
      { defaultNormalized := "d", originalNormalized := "o",
        originalLanguage := some "fr" } = 12 ∧
    Tmdb.scoreLocalizedCandidate
      { title := "T", source := "alternative", normalizedTitle := "y",
        meta := { type := some "dvd" } }
      { defaultNormalized := "d", originalNormalized := "o",
        originalLanguage := some "fr" } <
    Tmdb.scoreLocalizedCandidate
      { title := "É", source := "translation", normalizedTitle := "x",
        containsNonAscii := true, meta := { iso639 := some "fr" } }
      { defaultNormalized := "d", originalNormalized := "o",
        originalLanguage := some "fr" } :=
  scoreLocalizedCandidate_translation_beats_dvd _ _ _ "fr"
    rfl rfl rfl rfl (by decide) rfl rfl (by decide) (by decide)
    rfl rfl rfl rfl rfl (by decide) (by decide)

/-- C8: when an IMDb ID is supplied and the direct lookup yields a
match carrying a (truthy) `tmdbId`, `resolveTmdbId` returns that
match tagged `via = "imdb"` and invokes the title-search collaborator
zero times; the search collaborator is invoked only when the IMDb ID
is absent or the direct lookup fails; and when the title phase runs,
the candidates are tried in order — the first candidate yielding a
truthy match determines the result, with one search call per
candidate tried. -/
theorem resolveTmdbId_imdb_short_circuits :
    (∀ (apiKey imdbId title : Option String) (cands : List (Option String))
      (findO : Option Tmdb.TmdbMatch) (searchO : Option String → Option Tmdb.TmdbMatch)
      (m : Tmdb.TmdbMatch),
      strTruthy apiKey = true → strTruthy imdbId = true → findO = some m →
      m.tmdbId ≠ "" →
      Tmdb.resolveTmdbId apiKey imdbId title cands findO searchO =
        (some ⟨m, "imdb"⟩, 0)) ∧
    (∀ (apiKey imdbId title : Option String) (cands : List (Option String))
      (findO : Option Tmdb.TmdbMatch) (searchO : Option String → Option Tmdb.TmdbMatch),
      0 < (Tmdb.resolveTmdbId apiKey imdbId title cands findO searchO).2 →
      strTruthy imdbId = false ∨ findO = none ∨
        ∃ m, findO = some m ∧ m.tmdbId = "") ∧
    (∀ (searchO : Option String → Option Tmdb.TmdbMatch)
      (pre post : List (Option String)) (c : Option String) (m : Tmdb.TmdbMatch),
      (∀ c' ∈ pre, (∀ m', searchO c' = some m' → m'.tmdbId = "")) →
      searchO c = some m → m.tmdbId ≠ "" →
      Tmdb.resolveSearchLoop searchO (pre ++ c :: post) =
        (some ⟨m, Tmdb.titleVia c⟩, pre.length + 1)) := by
  refine ⟨?_, ?_, ?_⟩
  · intro apiKey imdbId title cands findO searchO m hk hi hf hm
    unfold Tmdb.resolveTmdbId
    rw [if_neg (by simp [hk])]
    simp [hi, hf, hm]
  · intro apiKey imdbId title cands findO searchO hpos
    by_cases hi : strTruthy imdbId
    · cases hf : findO with
      | none => exact Or.inr (Or.inl rfl)
      | some m =>
        by_cases hm : m.tmdbId = ""
        · exact Or.inr (Or.inr ⟨m, rfl, hm⟩)
        · exfalso
          unfold Tmdb.resolveTmdbId at hpos
          by_cases hk : strTruthy apiKey
          · rw [if_neg (by simp [hk])] at hpos
            simp [hi, hf, hm] at hpos
          · rw [if_pos (by simp [hk])] at hpos
            simp at hpos
    · exact Or.inl (Bool.eq_false_iff.mpr hi)
  · intro searchO pre post c m hpre hc hm
    induction pre with
    | nil =>
      rw [List.nil_append]
      unfold Tmdb.resolveSearchLoop
      rw [hc]
      simp [hm]
    | cons c' pre' ih =>
      rw [List.cons_append]
      unfold Tmdb.resolveSearchLoop
      cases hc' : searchO c' with
      | none =>
        rw [ih fun x hx => hpre x (by simp [hx])]
        rfl
      | some m' =>
        have hz : m'.tmdbId = "" := hpre c' (by simp) m' hc'
        rw [ih fun x hx => hpre x (by simp [hx])]
        simp [hz]

/-- Witness for C8 at concrete inputs: a successful IMDb lookup
returns `via = "imdb"` with zero search calls; a search-counted run
implies the IMDb path failed; the loop tries candidates in order. -/
theorem resolveTmdbId_imdb_short_circuits_witness :
    (strTruthy (some "k") = true ∧ strTruthy (some "tt1") = true ∧
      (some { tmdbId := "42" } : Option Tmdb.TmdbMatch) = some { tmdbId := "42" } ∧
      ({ tmdbId := "42" } : Tmdb.TmdbMatch).tmdbId ≠ "" ∧
      Tmdb.resolveTmdbId (some "k") (some "tt1") (some "T") []
        (some { tmdbId := "42" }) (fun _ => none) =
        (some ⟨{ tmdbId := "42" }, "imdb"⟩, 0)) ∧
    (0 < (Tmdb.resolveTmdbId (some "k") none (some "T") [] none (fun _ => none)).2 ∧
      (strTruthy none = false ∨ (none : Option Tmdb.TmdbMatch) = none ∨
        ∃ m, (none : Option Tmdb.TmdbMatch) = some m ∧ m.tmdbId = "")) ∧
    (Tmdb.resolveSearchLoop
        (fun c => if c = some "fr" then some { tmdbId := "9" } else none)
        ([some "de"] ++ some "fr" :: []) =
      (some ⟨{ tmdbId := "9" }, Tmdb.titleVia (some "fr")⟩, [some "de"].length + 1)) :=
  ⟨⟨by decide, by decide, rfl, by decide,
    resolveTmdbId_imdb_short_circuits.1 _ _ (some "T") [] _ _ _
      (by decide) (by decide) rfl (by decide)⟩,
   ⟨by decide,
    resolveTmdbId_imdb_short_circuits.2.1 (some "k") none (some "T") [] none
      (fun _ => none) (by decide)⟩,
   resolveTmdbId_imdb_short_circuits.2.2
     (fun c => if c = some "fr" then some { tmdbId := "9" } else none)
     [some "de"] [] (some "fr") { tmdbId := "9" }
     (by
       intro c' hc' m' hsm
       simp only [List.mem_singleton] at hc'
       subst hc'
       simp at hsm)
     (by decide) (by decide)⟩

namespace JS

theorem jsGet_no_key (k : String) :
    ∀ (l : List (String × JSVal)) (acc : Option JSVal),
      (∀ p ∈ l, p.1 ≠ k) →
      l.foldl (fun acc p => if p.1 = k then some p.2 else acc) acc = acc := by
  intro l
  induction l with
  | nil => intro acc _; rfl
  | cons p rest ih =>
    intro acc h
    rw [List.foldl_cons, if_neg (h p (by simp))]
    exact ih acc fun q hq => h q (by simp [hq])

theorem getField_obj (fs : List (String × JSVal)) (k : String) :
    getField (JSVal.obj fs) k = (jsGet fs k).getD JSVal.undef := rfl

end JS

/-- C9 counterexample: the spread order
`{...result, ...metadata, sortIndex, normalizedTitle}` lets parser
output overwrite original fields — with a parser that reports
`resolution: "1080p"` for a result that already carried
`resolution: "720p"`, the annotated record no longer has the original
value, refuting "every original field keeps its original value, for
every parser output". -/
theorem annotateNzbResult_overwrites_fields :
    JS.getField
        (JS.annotateNzbResult (fun _ => [("resolution", JS.JSVal.str "1080p")])
          (fun _ => JS.JSVal.str "x")
          (JS.JSVal.obj [("title", JS.JSVal.str "T"), ("resolution", JS.JSVal.str "720p")]) 0)
        "resolution" ≠
      JS.getField
        (JS.JSVal.obj [("title", JS.JSVal.str "T"), ("resolution", JS.JSVal.str "720p")])
        "resolution" := by
  intro h
  have h' : JS.JSVal.str "1080p" = JS.JSVal.str "720p" := h
  injection h' with h''
  exact absurd h'' (by decide)

/-- C9 amended: `annotateNzbResult` preserves every original field
whose name is neither produced by the parser nor `sortIndex` /
`normalizedTitle` (those are overwritten by the spread); the same
holds of an array input's index fields, but the array itself is not
returned unchanged — `typeof [] === 'object'` lets it through the
guard and the spread rebuilds it as a fresh plain object; primitive
and `null`/`undefined` inputs are returned unchanged. -/
theorem annotateNzbResult_preserves_other_fields :
    (∀ (parse : JS.JSVal → List (String × JS.JSVal)) (norm : JS.JSVal → JS.JSVal)
      (fields : List (String × JS.JSVal)) (idx : Int) (k : String),
      k ∉ (parse (if JS.truthy (JS.getField (JS.JSVal.obj fields) "title") then
        JS.getField (JS.JSVal.obj fields) "title" else JS.JSVal.str "")).map Prod.fst →
      k ≠ "sortIndex" → k ≠ "normalizedTitle" →
      JS.getField (JS.annotateNzbResult parse norm (JS.JSVal.obj fields) idx) k =
        JS.getField (JS.JSVal.obj fields) k) ∧
    (∀ (parse : JS.JSVal → List (String × JS.JSVal)) (norm : JS.JSVal → JS.JSVal)
      (elems : List JS.JSVal) (idx : Int) (k : String),
      k ∉ (parse (if JS.truthy (JS.getField (JS.JSVal.arr elems) "title") then
        JS.getField (JS.JSVal.arr elems) "title" else JS.JSVal.str "")).map Prod.fst →
      k ≠ "sortIndex" → k ≠ "normalizedTitle" →
      JS.getField (JS.annotateNzbResult parse norm (JS.JSVal.arr elems) idx) k =
        (JS.jsGet (JS.arrayIndexFields elems) k).getD JS.JSVal.undef) ∧
    (∀ (parse : JS.JSVal → List (String × JS.JSVal)) (norm : JS.JSVal → JS.JSVal)
      (elems : List JS.JSVal) (idx : Int),
      ∃ fs, JS.annotateNzbResult parse norm (JS.JSVal.arr elems) idx =
        JS.JSVal.obj fs) ∧
    (∀ (parse : JS.JSVal → List (String × JS.JSVal)) (norm : JS.JSVal → JS.JSVal)
      (v : JS.JSVal) (idx : Int),
      (match v with
       | JS.JSVal.obj _ => False
       | JS.JSVal.arr _ => False
       | _ => True) →
      JS.annotateNzbResult parse norm v idx = v) := by
  refine ⟨?_, ?_, ?_, ?_⟩
  · intro parse norm fields idx k hmeta hsi hnt
    show (JS.jsGet (fields ++ _ ++ [("sortIndex", JS.JSVal.num idx),
      ("normalizedTitle", norm (JS.getField (JS.JSVal.obj fields) "title"))]) k).getD
        JS.JSVal.undef = _
    unfold JS.jsGet
    rw [List.foldl_append, List.foldl_append]
    rw [JS.jsGet_no_key k _ _ (by
      intro p hp
      simp only [List.mem_cons, List.mem_singleton] at hp
      rcases hp with rfl | rfl | h
      · exact fun he => hsi he.symm
      · exact fun he => hnt he.symm
      · exact absurd h (List.not_mem_nil p))]
    rw [JS.jsGet_no_key k _ _ (by
      intro p hp heq
      exact hmeta (heq ▸ List.mem_map_of_mem Prod.fst hp))]
    rfl
  · intro parse norm elems idx k hmeta hsi hnt
    show (JS.jsGet (JS.arrayIndexFields elems ++ _ ++ [("sortIndex", JS.JSVal.num idx),
      ("normalizedTitle", norm (JS.getField (JS.JSVal.arr elems) "title"))]) k).getD
        JS.JSVal.undef = _
    unfold JS.jsGet
    rw [List.foldl_append, List.foldl_append]
    rw [JS.jsGet_no_key k _ _ (by
      intro p hp
      simp only [List.mem_cons, List.mem_singleton] at hp
      rcases hp with rfl | rfl | h
      · exact fun he => hsi he.symm
      · exact fun he => hnt he.symm
      · exact absurd h (List.not_mem_nil p))]
    rw [JS.jsGet_no_key k _ _ (by
      intro p hp heq
      exact hmeta (heq ▸ List.mem_map_of_mem Prod.fst hp))]
  · intro parse norm elems idx
    exact ⟨_, rfl⟩
  · intro parse norm v idx hv
    cases v with
    | obj fs => exact absurd hv (by simp)
    | arr a => exact absurd hv (by simp)
    | undef => rfl
    | nullV => rfl
    | bool b => rfl
    | num n => rfl
    | nan => rfl
    | str s => rfl

/-- Witness for C9 (amended) at concrete inputs: the field `codec`
is not produced by the parser and survives annotation of an object;
the index field `"0"` of an array input survives into the rebuilt
plain object; an array input yields a plain object; a number input
passes through unchanged. -/
theorem annotateNzbResult_preserves_other_fields_witness :
    ("codec" ∉ ((fun (_ : JS.JSVal) => [("resolution", JS.JSVal.str "1080p")])
        (if JS.truthy (JS.getField
            (JS.JSVal.obj [("title", JS.JSVal.str "T"), ("codec", JS.JSVal.str "x264")])
            "title") then
          JS.getField
            (JS.JSVal.obj [("title", JS.JSVal.str "T"), ("codec", JS.JSVal.str "x264")])
            "title"
        else JS.JSVal.str "")).map Prod.fst ∧
      "codec" ≠ "sortIndex" ∧ "codec" ≠ "normalizedTitle" ∧
      JS.getField
        (JS.annotateNzbResult (fun _ => [("resolution", JS.JSVal.str "1080p")])
          (fun _ => JS.JSVal.str "t")
          (JS.JSVal.obj [("title", JS.JSVal.str "T"), ("codec", JS.JSVal.str "x264")]) 0)
        "codec" =
        JS.getField
          (JS.JSVal.obj [("title", JS.JSVal.str "T"), ("codec", JS.JSVal.str "x264")])
          "codec") ∧
    ("0" ∉ ((fun (_ : JS.JSVal) => [("resolution", JS.JSVal.str "1080p")])
        (if JS.truthy (JS.getField (JS.JSVal.arr [JS.JSVal.str "a"]) "title") then
          JS.getField (JS.JSVal.arr [JS.JSVal.str "a"]) "title"
        else JS.JSVal.str "")).map Prod.fst ∧
      "0" ≠ "sortIndex" ∧ "0" ≠ "normalizedTitle" ∧
      JS.getField
        (JS.annotateNzbResult (fun _ => [("resolution", JS.JSVal.str "1080p")])
          (fun _ => JS.JSVal.str "t") (JS.JSVal.arr [JS.JSVal.str "a"]) 0) "0" =
        (JS.jsGet (JS.arrayIndexFields [JS.JSVal.str "a"]) "0").getD JS.JSVal.undef) ∧
    (∃ fs, JS.annotateNzbResult (fun _ => [("resolution", JS.JSVal.str "1080p")])
      (fun _ => JS.JSVal.str "t") (JS.JSVal.arr [JS.JSVal.str "a"]) 0 =
      JS.JSVal.obj fs) ∧
    JS.annotateNzbResult (fun _ => [("resolution", JS.JSVal.str "1080p")])
      (fun _ => JS.JSVal.str "t") (JS.JSVal.num 3) 0 = JS.JSVal.num 3 :=
  ⟨⟨by simp, by decide, by decide,
    annotateNzbResult_preserves_other_fields.1 _ _ _ 0 "codec" (by simp)
      (by decide) (by decide)⟩,
   ⟨by simp, by decide, by decide,
    annotateNzbResult_preserves_other_fields.2.1 _ _ _ 0 "0" (by simp)
      (by decide) (by decide)⟩,
   annotateNzbResult_preserves_other_fields.2.2.1 _ _ [JS.JSVal.str "a"] 0,
   annotateNzbResult_preserves_other_fields.2.2.2 _ _ _ 0 (by simp)⟩

namespace Helpers

theorem prioritizeLoop_none_eq_dedup (norm : Option String → Option String) :
    ∀ (rs : List (Option TR)) (seen : List (Option String)) (len : Nat),
      prioritizeLoop norm none rs seen len = dedupFirstByKey norm rs seen := by
  intro rs
  induction rs with
  | nil => intro seen len; rfl
  | cons r rest ih =>
    intro seen len
    cases r with
    | none => exact ih seen len
    | some r =>
      unfold prioritizeLoop dedupFirstByKey
      by_cases hk : triageKey norm r ∈ seen
      · rw [if_pos hk, if_pos hk]
        exact ih seen len
      · rw [if_neg hk, if_neg hk,
          show capReached none (len + 1) = false from rfl]
        simp only [Bool.false_eq_true, if_false]
        rw [ih]

theorem prioritizeLoop_cap_bound (norm : Option String → Option String) (n : Int) :
    ∀ (rs : List (Option TR)) (seen : List (Option String)) (len : Nat),
      (len : Int) < max 1 n →
      ((prioritizeLoop norm (some n) rs seen len).length : Int) ≤ max 1 n - len := by
  intro rs
  induction rs with
  | nil => intro seen len h; simp [prioritizeLoop]; omega
  | cons r rest ih =>
    intro seen len h
    cases r with
    | none =>
      have := ih seen len h
      simpa [prioritizeLoop] using this
    | some r =>
      unfold prioritizeLoop
      by_cases hk : triageKey norm r ∈ seen
      · rw [if_pos hk]
        exact ih seen len h
      · rw [if_neg hk]
        by_cases hcap : capReached (some n) (len + 1)
        · rw [if_pos hcap]
          simp only [List.length_singleton]
          omega
        · rw [if_neg hcap]
          have hlt : ((len + 1 : Nat) : Int) < max 1 n := by
            unfold capReached at hcap
            simp only [ge_iff_le, decide_eq_true_eq] at hcap
            push_neg at hcap
            exact_mod_cast hcap
          have := ih (triageKey norm r :: seen) (len + 1) hlt
          simp only [List.length_cons]
          push_cast at this ⊢
          omega

end Helpers

/-- The two cap regimes of the `Option Int`-typed selection loop:
a `NaN` cap (`none`) never breaks the loop, so the function equals
the cap-free first-occurrence de-duplication; a numeric cap `n`
bounds the output length by `max 1 n`. -/
theorem prioritizeTriageCandidates_cap_engine :
    (∀ (norm : Option String → Option String) (results : List (Option Helpers.TR)),
      Helpers.prioritizeTriageCandidates norm results none =
        Helpers.dedupFirstByKey norm results []) ∧
    (∀ (norm : Option String → Option String) (results : List (Option Helpers.TR))
      (n : Int),
      ((Helpers.prioritizeTriageCandidates norm results (some n)).length : Int) ≤
        max 1 n) := by
  constructor
  · intro norm results
    unfold Helpers.prioritizeTriageCandidates
    rcases eq_or_ne results [] with rfl | hne
    · rfl
    · rw [if_neg (by simpa [List.isEmpty_iff] using hne)]
      exact Helpers.prioritizeLoop_none_eq_dedup norm results [] 0
  · intro norm results n
    unfold Helpers.prioritizeTriageCandidates
    rcases eq_or_ne results [] with rfl | hne
    · simp
    · rw [if_neg (by simpa [List.isEmpty_iff] using hne)]
      have := Helpers.prioritizeLoop_cap_bound norm n results [] 0 (by omega)
      simpa using this

/-- C10 counterexample: `maxCandidates = null` is not a number, yet
`Math.max(1, null)` coerces `null` to `0` and yields the real cap
`1`, so the loop breaks after the first push and returns one item —
not the first occurrence of every distinct de-duplication key. -/
theorem prioritizeTriageCandidates_null_caps :
    JS.prioritizeTriageCandidatesJS (fun _ => none)
        [some { normalizedTitle := some "a" }, some { normalizedTitle := some "b" }]
        JS.JSVal.nullV ≠
      Helpers.dedupFirstByKey (fun _ => none)
        [some { normalizedTitle := some "a" }, some { normalizedTitle := some "b" }]
        [] := by decide

/-- C10 amended: `prioritizeTriageCandidates` applies no length cap
exactly when `ToNumber(maxCandidates)` is `NaN` (e.g. `maxCandidates`
omitted, or a non-numeric string): then it returns the first
occurrence of every distinct de-duplication key in input order.  When
`ToNumber(maxCandidates)` is a number `n` — which includes non-number
arguments such as `null` (coerced to `0`) and numeric strings like
`"3"` — the `max(1, n)` truncation takes effect and the output has at
most `max 1 n` items. -/
theorem prioritizeTriageCandidatesJS_cap_semantics :
    (∀ (norm : Option String → Option String) (results : List (Option Helpers.TR))
      (maxCandidates : JS.JSVal),
      JS.jsToNumber maxCandidates = none →
      JS.prioritizeTriageCandidatesJS norm results maxCandidates =
        Helpers.dedupFirstByKey norm results []) ∧
    (∀ (norm : Option String → Option String) (results : List (Option Helpers.TR))
      (maxCandidates : JS.JSVal) (n : Int),
      JS.jsToNumber maxCandidates = some n →
      ((JS.prioritizeTriageCandidatesJS norm results maxCandidates).length : Int) ≤
        max 1 n) ∧
    JS.jsToNumber JS.JSVal.undef = none ∧
    JS.jsToNumber JS.JSVal.nullV = some 0 ∧
    JS.jsToNumber (JS.JSVal.str "3") = some 3 ∧
    JS.jsToNumber (JS.JSVal.str "abc") = none := by
  refine ⟨?_, ?_, rfl, rfl, by decide, by decide⟩
  · intro norm results mc h
    unfold JS.prioritizeTriageCandidatesJS
    rw [h]
    exact prioritizeTriageCandidates_cap_engine.1 norm results
  · intro norm results mc n h
    unfold JS.prioritizeTriageCandidatesJS
    rw [h]
    exact prioritizeTriageCandidates_cap_engine.2 norm results n

/-- Witness for C10 (amended) at concrete inputs: `undefined` gives
the uncapped de-duplication, `null` coerces to the cap `1`. -/
theorem prioritizeTriageCandidatesJS_cap_semantics_witness :
    (JS.jsToNumber JS.JSVal.undef = none ∧
      JS.prioritizeTriageCandidatesJS (fun _ => none)
          [some { normalizedTitle := some "a" }, some { normalizedTitle := some "b" }]
          JS.JSVal.undef =
        Helpers.dedupFirstByKey (fun _ => none)
          [some { normalizedTitle := some "a" }, some { normalizedTitle := some "b" }]
          []) ∧
    (JS.jsToNumber JS.JSVal.nullV = some 0 ∧
      ((JS.prioritizeTriageCandidatesJS (fun _ => none)
          [some { normalizedTitle := some "a" }, some { normalizedTitle := some "b" }]
          JS.JSVal.nullV).length : Int) ≤ max 1 0) :=
  ⟨⟨rfl, prioritizeTriageCandidatesJS_cap_semantics.1 _ _ _ rfl⟩,
   ⟨rfl, prioritizeTriageCandidatesJS_cap_semantics.2.1 _ _ _ 0 rfl⟩⟩
